import Mathlib

/-!
# Verification of the mykv SSTable builder/reader core

Shallow embedding of the SSTable components of the `mykv` repository:
the binary codec (`base.h`: `BlockHandle`, `Footer`, `writeKV`, `readKV`,
`getEntrySize`), the table builder (`sstablebuilder.cpp`) and the table
reader (`sstablereader.cpp`).

Byte strings (`std::string` / `std::string_view`) are modelled as
`List Nat`; machine integers are `Nat` with explicit `% 2^32` / `% 2^64`
where the C++ code truncates.  File streams are modelled by the list of
bytes written so far (the builder only ever appends; `tellp` is the
current length).  Lexicographic comparison of byte strings mirrors
`std::string_view::operator<=` on unsigned bytes.
-/

namespace MyKV

/-- Lexicographic strict "less than" on byte strings, as C++
`std::string_view` comparison: elementwise, a proper prefix is smaller. -/
def ltB : List Nat → List Nat → Bool
  | [], [] => false
  | [], _ :: _ => true
  | _ :: _, [] => false
  | a :: as, b :: bs => if a < b then true else if b < a then false else ltB as bs

/-- Lexicographic "less or equal": `a <= b` is `!(b < a)` for strings. -/
def leB (a b : List Nat) : Bool := !(ltB b a)

theorem ltB_irrefl (a : List Nat) : ltB a a = false := by
  induction a with
  | nil => rfl
  | cons x xs ih => simp [ltB, ih]

theorem ltB_asymm {a b : List Nat} (h : ltB a b = true) : ltB b a = false := by
  induction a generalizing b with
  | nil => cases b with
    | nil => simp [ltB] at h
    | cons y ys => simp [ltB]
  | cons x xs ih =>
    cases b with
    | nil => simp [ltB] at h
    | cons y ys =>
      simp only [ltB] at h ⊢
      rcases Nat.lt_trichotomy x y with hlt | heq | hgt
      · simp [hlt, Nat.not_lt.mpr (Nat.le_of_lt hlt), Nat.lt_irrefl]
      · subst heq
        simp only [Nat.lt_irrefl, if_false] at h ⊢
        exact ih h
      · simp [hgt, Nat.not_lt.mpr (Nat.le_of_lt hgt)] at h

theorem ltB_antisymm {a b : List Nat} (h₁ : ltB a b = false) (h₂ : ltB b a = false) :
    a = b := by
  induction a generalizing b with
  | nil => cases b with
    | nil => rfl
    | cons y ys => simp [ltB] at h₁
  | cons x xs ih =>
    cases b with
    | nil => simp [ltB] at h₂
    | cons y ys =>
      simp only [ltB] at h₁ h₂
      rcases Nat.lt_trichotomy x y with hlt | heq | hgt
      · simp [hlt] at h₁
      · subst heq
        simp only [Nat.lt_irrefl, if_false] at h₁ h₂
        exact congrArg (x :: ·) (ih h₁ h₂)
      · simp [hgt] at h₂

theorem ltB_trans {a b c : List Nat} (h₁ : ltB a b = true) (h₂ : ltB b c = true) :
    ltB a c = true := by
  induction a generalizing b c with
  | nil => cases c with
    | nil =>
      cases b with
      | nil => exact h₁
      | cons y ys => simp [ltB] at h₂
    | cons z zs => simp [ltB]
  | cons x xs ih =>
    cases b with
    | nil => simp [ltB] at h₁
    | cons y ys =>
      cases c with
      | nil => simp [ltB] at h₂
      | cons z zs =>
        simp only [ltB] at h₁ h₂ ⊢
        rcases Nat.lt_trichotomy x y with hxy | hxy | hxy
        · rcases Nat.lt_trichotomy y z with hyz | hyz | hyz
          · simp [Nat.lt_trans hxy hyz]
          · subst hyz; simp [hxy]
          · simp [hyz, Nat.not_lt.mpr (Nat.le_of_lt hyz)] at h₂
        · subst hxy
          rcases Nat.lt_trichotomy x z with hyz | hyz | hyz
          · simp [hyz]
          · subst hyz
            simp only [Nat.lt_irrefl, if_false] at h₁ h₂ ⊢
            exact ih h₁ h₂
          · simp [hyz, Nat.not_lt.mpr (Nat.le_of_lt hyz)] at h₂
        · simp [hxy, Nat.not_lt.mpr (Nat.le_of_lt hxy)] at h₁

theorem ltB_total {a b : List Nat} (h : ltB a b = false) (hne : a ≠ b) :
    ltB b a = true := by
  cases hba : ltB b a with
  | true => rfl
  | false => exact absurd (ltB_antisymm h hba) hne

/-! ## Fixed-width little-endian integer codec

`memcpy` of a `uint32_t` / `uint64_t` into a byte buffer in native
(little-endian) order, and reading it back. -/

/-- The 4 bytes of a `uint32_t` (value taken mod `2^32`), little-endian. -/
def encodeU32 (n : Nat) : List Nat :=
  [n % 256, n / 256 % 256, n / 256 ^ 2 % 256, n / 256 ^ 3 % 256]

/-- The 8 bytes of a `uint64_t` (value taken mod `2^64`), little-endian. -/
def encodeU64 (n : Nat) : List Nat :=
  [n % 256, n / 256 % 256, n / 256 ^ 2 % 256, n / 256 ^ 3 % 256,
   n / 256 ^ 4 % 256, n / 256 ^ 5 % 256, n / 256 ^ 6 % 256, n / 256 ^ 7 % 256]

/-- Read a `uint32_t` from the first 4 bytes of a view (little-endian). -/
def decodeU32 (l : List Nat) : Nat :=
  l.getD 0 0 + 256 * l.getD 1 0 + 256 ^ 2 * l.getD 2 0 + 256 ^ 3 * l.getD 3 0

/-- Read a `uint64_t` from the first 8 bytes of a view (little-endian). -/
def decodeU64 (l : List Nat) : Nat :=
  l.getD 0 0 + 256 * l.getD 1 0 + 256 ^ 2 * l.getD 2 0 + 256 ^ 3 * l.getD 3 0 +
  256 ^ 4 * l.getD 4 0 + 256 ^ 5 * l.getD 5 0 + 256 ^ 6 * l.getD 6 0 +
  256 ^ 7 * l.getD 7 0

theorem encodeU32_length (n : Nat) : (encodeU32 n).length = 4 := rfl

theorem encodeU64_length (n : Nat) : (encodeU64 n).length = 8 := rfl

theorem decodeU32_encodeU32 (n : Nat) (rest : List Nat) :
    decodeU32 (encodeU32 n ++ rest) = n % 2 ^ 32 := by
  simp only [encodeU32, decodeU32, List.cons_append, List.nil_append, List.getD]
  simp only [List.get?, Option.getD_some]
  omega

theorem decodeU64_encodeU64 (n : Nat) (rest : List Nat) :
    decodeU64 (encodeU64 n ++ rest) = n % 2 ^ 64 := by
  simp only [encodeU64, decodeU64, List.cons_append, List.nil_append, List.getD]
  simp only [List.get?, Option.getD_some]
  omega

theorem encodeU32_decodeU32 (l : List Nat) (hlen : l.length = 4)
    (hbytes : ∀ b ∈ l, b < 256) : encodeU32 (decodeU32 l) = l := by
  match l, hlen with
  | [a, b, c, d], _ =>
    have ha := hbytes a (by simp)
    have hb := hbytes b (by simp)
    have hc := hbytes c (by simp)
    have hd := hbytes d (by simp)
    simp only [encodeU32, decodeU32, List.getD]
    simp only [List.get?, Option.getD_some, Option.getD_none]
    refine List.ext_getElem (by simp) ?_
    intro i h1 h2
    simp only [List.length_cons, List.length_nil] at h2
    interval_cases i <;> simp <;> omega

theorem encodeU64_decodeU64 (l : List Nat) (hlen : l.length = 8)
    (hbytes : ∀ b ∈ l, b < 256) : encodeU64 (decodeU64 l) = l := by
  match l, hlen with
  | [a, b, c, d, e, f, g, h], _ =>
    have ha := hbytes a (by simp)
    have hb := hbytes b (by simp)
    have hc := hbytes c (by simp)
    have hd := hbytes d (by simp)
    have he := hbytes e (by simp)
    have hf := hbytes f (by simp)
    have hg := hbytes g (by simp)
    have hh := hbytes h (by simp)
    simp only [encodeU64, decodeU64, List.getD]
    simp only [List.get?, Option.getD_some, Option.getD_none]
    refine List.ext_getElem (by simp) ?_
    intro i h1 h2
    simp only [List.length_cons, List.length_nil] at h2
    interval_cases i <;> simp <;> omega

/-! ## K/V record codec (`base.h`: `writeKV`, `getEntrySize`, `readKV`)

On-disk record format: `[key_len:u32][key][value_len:u32][value]`. -/

/-- The bytes `writeKV` appends for one record:
`[key_len (4B)] [key_data] [val_len (4B)] [val_data]`
(`key_len` / `value_len` are the sizes cast to `uint32_t`). -/
def encRecord (key value : List Nat) : List Nat :=
  encodeU32 key.length ++ key ++ encodeU32 value.length ++ value

/-- Model of `writeKV(buffer, key, value)`: appends the encoded record to `buffer`. -/
def writeKV (buffer key value : List Nat) : List Nat :=
  buffer ++ encRecord key value

/-- Model of `getEntrySize(key, value)`: the on-disk size of a record, as the C++
function computes it — a `uint32_t`, hence truncated mod `2^32`. -/
def getEntrySize (key value : List Nat) : Nat :=
  (4 + key.length + 4 + value.length) % 2 ^ 32

theorem encRecord_length (key value : List Nat) :
    (encRecord key value).length = 8 + key.length + value.length := by
  simp [encRecord, encodeU32]
  omega

theorem encRecord_ne_nil (key value : List Nat) : encRecord key value ≠ [] := by
  intro h
  have := congrArg List.length h
  simp [encRecord_length] at this

/-- Model of `readKV(input, key, value)`: reads one record off the front of `input`;
returns the key view, the value view and the remaining view, or fails if
a length field or a declared range does not fit in the view. -/
def readKV (input : List Nat) : Option (List Nat × List Nat × List Nat) :=
  if input.length < 4 then none else
  let key_len := decodeU32 input
  let in1 := input.drop 4
  if in1.length < key_len then none else
  let key := in1.take key_len
  let in2 := in1.drop key_len
  if in2.length < 4 then none else
  let value_len := decodeU32 in2
  let in3 := in2.drop 4
  if in3.length < value_len then none else
  some (key, in3.take value_len, in3.drop value_len)

/-- Reading back a record that `writeKV` wrote (sizes below `2^32`)
recovers the key, the value and the rest of the buffer. -/
theorem readKV_encRecord (key value rest : List Nat)
    (hk : key.length < 2 ^ 32) (hv : value.length < 2 ^ 32) :
    readKV (encRecord key value ++ rest) = some (key, value, rest) := by
  have hd32 : decodeU32 (encodeU32 key.length ++ (key ++ (encodeU32 value.length ++ (value ++ rest)))) = key.length := by
    rw [decodeU32_encodeU32, Nat.mod_eq_of_lt hk]
  have hlen : (encodeU32 key.length ++ (key ++ (encodeU32 value.length ++ (value ++ rest)))).length =
      8 + key.length + value.length + rest.length := by
    simp [encodeU32]; omega
  rw [readKV]
  simp only [encRecord, List.append_assoc]
  rw [hlen, hd32]
  have h1 : ¬(8 + key.length + value.length + rest.length < 4) := by omega
  simp only [h1, if_false]
  have hdrop4 : (encodeU32 key.length ++ (key ++ (encodeU32 value.length ++ (value ++ rest)))).drop 4 =
      key ++ (encodeU32 value.length ++ (value ++ rest)) := by
    rw [show (4 : Nat) = (encodeU32 key.length).length from (encodeU32_length _).symm,
      List.drop_left]
  rw [hdrop4]
  have hlen2 : (key ++ (encodeU32 value.length ++ (value ++ rest))).length =
      key.length + (4 + value.length + rest.length) := by simp [encodeU32]; omega
  rw [hlen2]
  have h2 : ¬(key.length + (4 + value.length + rest.length) < key.length) := by omega
  simp only [h2, if_false]
  have htake : (key ++ (encodeU32 value.length ++ (value ++ rest))).take key.length = key :=
    List.take_left key _
  have hdropk : (key ++ (encodeU32 value.length ++ (value ++ rest))).drop key.length =
      encodeU32 value.length ++ (value ++ rest) := List.drop_left key _
  rw [htake, hdropk]
  have hlen3 : (encodeU32 value.length ++ (value ++ rest)).length =
      4 + value.length + rest.length := by simp [encodeU32]; omega
  have hd32v : decodeU32 (encodeU32 value.length ++ (value ++ rest)) = value.length := by
    rw [decodeU32_encodeU32, Nat.mod_eq_of_lt hv]
  rw [hlen3, hd32v]
  have h3 : ¬(4 + value.length + rest.length < 4) := by omega
  simp only [h3, if_false]
  have hdrop4v : (encodeU32 value.length ++ (value ++ rest)).drop 4 = value ++ rest := by
    rw [show (4 : Nat) = (encodeU32 value.length).length from (encodeU32_length _).symm,
      List.drop_left]
  rw [hdrop4v]
  have hlen4 : (value ++ rest).length = value.length + rest.length := by simp
  rw [hlen4]
  have h4 : ¬(value.length + rest.length < value.length) := by omega
  simp only [h4, if_false]
  rw [List.take_left value rest, List.drop_left value rest]

/-- A successful `readKV` consumes at least the two length fields:
the remaining view is strictly shorter than the input. -/
theorem readKV_rest_length {input key value rest : List Nat}
    (h : readKV input = some (key, value, rest)) :
    rest.length + 8 + key.length + value.length = input.length := by
  simp only [readKV] at h
  split at h
  · simp at h
  split at h
  · simp at h
  split at h
  · simp at h
  split at h
  · simp at h
  rename_i h1 h2 h3 h4
  simp only [Option.some.injEq, Prod.mk.injEq] at h
  obtain ⟨rfl, rfl, rfl⟩ := h
  simp only [List.length_take, List.length_drop] at h1 h2 h3 h4 ⊢
  omega

/-! ## Layout constants and pointer structures (`base.h`) -/

def DATA_BLOCK_SIZE_THRESHOLD : Nat := 128

def SSTABLE_MAGIC_NUMBER : Nat := 0xDEADBEEFCAFEF00D

def BLOCK_HANDLE_SIZE : Nat := 12

def FOOTER_SIZE : Nat := 20

/-- Model of `BlockHandle`: a pointer to a byte range of the file.
`offset_` is a `uint64_t`, `size_` a `uint32_t`. -/
structure BlockHandle where
  offset : Nat
  size : Nat
  deriving Repr, DecidableEq

/-- The 12 bytes `BlockHandle::EncodeTo` appends: offset then size. -/
def encHandle (h : BlockHandle) : List Nat :=
  encodeU64 h.offset ++ encodeU32 h.size

/-- Model of `BlockHandle::EncodeTo(dst)`: append the 12-byte encoding to `dst`. -/
def BlockHandle.EncodeTo (h : BlockHandle) (dst : List Nat) : List Nat :=
  dst ++ encHandle h

/-- Model of `BlockHandle::DecodeFrom(input)`: parse 12 bytes off the front of the
view, advancing it; on a short view fail and leave the handle unchanged.
Returns (success, handle after the call, remaining view). -/
def BlockHandle.DecodeFrom (h : BlockHandle) (input : List Nat) :
    Bool × BlockHandle × List Nat :=
  if input.length < 12 then (false, h, input)
  else (true, ⟨decodeU64 input, decodeU32 (input.drop 8)⟩, input.drop 12)

theorem encHandle_length (h : BlockHandle) : (encHandle h).length = 12 := by
  simp [encHandle, encodeU32, encodeU64]

theorem decodeFrom_encHandle (h : BlockHandle) (rest : List Nat) (h0 : BlockHandle)
    (ho : h.offset < 2 ^ 64) (hs : h.size < 2 ^ 32) :
    h0.DecodeFrom (encHandle h ++ rest) = (true, h, rest) := by
  have hlen : (encHandle h ++ rest).length = 12 + rest.length := by
    simp [encHandle_length]
  have hdrop8 : (encHandle h ++ rest).drop 8 = encodeU32 h.size ++ rest := by
    simp only [encHandle, List.append_assoc]
    rw [show (8 : Nat) = (encodeU64 h.offset).length from (encodeU64_length _).symm,
      List.drop_left]
  have hdrop12 : (encHandle h ++ rest).drop 12 = rest := by
    rw [show (12 : Nat) = (encHandle h).length from (encHandle_length _).symm,
      List.drop_left]
  rw [BlockHandle.DecodeFrom, hlen]
  have h1 : ¬(12 + rest.length < 12) := by omega
  simp only [h1, if_false]
  rw [hdrop8, hdrop12]
  simp only [encHandle, List.append_assoc]
  rw [decodeU64_encodeU64, decodeU32_encodeU32,
    Nat.mod_eq_of_lt ho, Nat.mod_eq_of_lt hs]

/-- Model of `Footer`: a `BlockHandle` for the index block plus the magic number. -/
structure Footer where
  index_block_handle : BlockHandle
  magic_number : Nat
  deriving Repr, DecidableEq

/-- The 20 bytes `Footer::EncodeTo` appends: handle then magic. -/
def encFooter (f : Footer) : List Nat :=
  encHandle f.index_block_handle ++ encodeU64 f.magic_number

/-- Model of `Footer::EncodeTo(dst)`: append the 20-byte encoding to `dst`. -/
def Footer.EncodeTo (f : Footer) (dst : List Nat) : List Nat :=
  dst ++ encFooter f

/-- Model of `Footer::DecodeFrom(input)`: needs at least 20 bytes; reads the magic
at offset 12 first and fails on a mismatch (the handle member is then
left untouched); otherwise parses the handle from the first 12 bytes.
Returns (success, footer after the call). -/
def Footer.DecodeFrom (f : Footer) (input : List Nat) : Bool × Footer :=
  if input.length < BLOCK_HANDLE_SIZE + 8 then (false, f)
  else
    let m := decodeU64 (input.drop 12)
    if m ≠ SSTABLE_MAGIC_NUMBER then (false, { f with magic_number := m })
    else
      let r := f.index_block_handle.DecodeFrom (input.take 12)
      (r.1, { index_block_handle := r.2.1, magic_number := m })

theorem encFooter_length (f : Footer) : (encFooter f).length = 20 := by
  simp [encFooter, encHandle_length, encodeU64]

/-- Decoding an encoded footer with the right magic succeeds and recovers
the handle. -/
theorem decodeFrom_encFooter (f : Footer) (f0 : Footer)
    (hm : f.magic_number = SSTABLE_MAGIC_NUMBER)
    (ho : f.index_block_handle.offset < 2 ^ 64)
    (hs : f.index_block_handle.size < 2 ^ 32) :
    f0.DecodeFrom (encFooter f) = (true, f) := by
  have hlen : (encFooter f).length = 20 := encFooter_length f
  have hdrop12 : (encFooter f).drop 12 = encodeU64 f.magic_number := by
    rw [encFooter, show (12 : Nat) = (encHandle f.index_block_handle).length from
      (encHandle_length _).symm, List.drop_left]
  have htake12 : (encFooter f).take 12 = encHandle f.index_block_handle := by
    rw [encFooter, show (12 : Nat) = (encHandle f.index_block_handle).length from
      (encHandle_length _).symm, List.take_left]
  have hm' : decodeU64 ((encFooter f).drop 12) = SSTABLE_MAGIC_NUMBER := by
    rw [hdrop12, show encodeU64 f.magic_number = encodeU64 f.magic_number ++ [] by simp,
      decodeU64_encodeU64, hm]
    simp [SSTABLE_MAGIC_NUMBER]
  have hdec : f0.index_block_handle.DecodeFrom ((encFooter f).take 12) =
      (true, f.index_block_handle, []) := by
    rw [htake12, show encHandle f.index_block_handle =
      encHandle f.index_block_handle ++ [] by simp]
    exact decodeFrom_encHandle _ _ _ ho hs
  simp [Footer.DecodeFrom, hlen, hm', hdec, BLOCK_HANDLE_SIZE, ← hm]

/-! ## Ordered in-memory index (`std::map<std::string, BlockHandle>`)

A `std::map` keyed by byte strings is modelled as an association list
sorted strictly ascending by `ltB`; `m[k] = h` is sorted
insert-or-overwrite, and `lower_bound` finds the first entry whose key
is not less than the query. -/

/-- Model of `index_data_[k] = h` on a sorted association list. -/
def mapInsert (m : List (List Nat × BlockHandle)) (k : List Nat) (h : BlockHandle) :
    List (List Nat × BlockHandle) :=
  match m with
  | [] => [(k, h)]
  | (k0, h0) :: rest =>
    if ltB k k0 then (k, h) :: (k0, h0) :: rest
    else if k0 = k then (k, h) :: rest
    else (k0, h0) :: mapInsert rest k h

/-- Model of `index_data_.lower_bound(k)`: first entry whose key is not `ltB`-below
`k`, on a sorted association list. -/
def lowerBound (m : List (List Nat × BlockHandle)) (k : List Nat) :
    Option (List Nat × BlockHandle) :=
  match m with
  | [] => none
  | (k0, h0) :: rest => if ltB k0 k then lowerBound rest k else some (k0, h0)

/-- Inserting a key greater than every key of the map appends at the end. -/
theorem mapInsert_append (m : List (List Nat × BlockHandle)) (k : List Nat)
    (h : BlockHandle) (hgt : ∀ e ∈ m, ltB e.1 k = true) :
    mapInsert m k h = m ++ [(k, h)] := by
  induction m with
  | nil => rfl
  | cons e rest ih =>
    obtain ⟨k0, h0⟩ := e
    have hk0 : ltB k0 k = true := hgt (k0, h0) (by simp)
    have h1 : ltB k k0 = false := ltB_asymm hk0
    have h2 : k0 ≠ k := by
      intro hEq; subst hEq; simp [ltB_irrefl] at hk0
    simp only [mapInsert, h1, Bool.false_eq_true, if_false, h2, if_false,
      List.cons_append]
    exact congrArg _ (ih fun e he => hgt e (by simp [he]))

/-! ## The table builder (`sstablebuilder.cpp`)

The builder's output stream is the list of bytes written so far; `tellp`
is its length (the stream only ever appends).  A builder whose file
failed to open has `fileOk = false`. -/

/-- The state of an `SSTableBuilder`. -/
structure SSTableBuilder where
  fileOk : Bool
  finished : Bool
  file : List Nat
  cur_data_block : List Nat
  last_key_in_block : List Nat
  cur_data_block_offset : Nat
  index_data : List (List Nat × BlockHandle)
  deriving Repr, DecidableEq

/-- Model of `SSTableBuilder(filename)` with a successfully opened file: empty
stream, not finished, first block starts at offset 0. -/
def SSTableBuilder.init : SSTableBuilder :=
  ⟨true, false, [], [], [], 0, []⟩

/-- Model of `SSTableBuilder::FlushDataBlock()`: no-op on an empty buffer;
otherwise append the buffer to the file, record the index entry
`(last_key_in_block, (tagged offset, buffer size as u32))`, and clear
the buffer. -/
def SSTableBuilder.FlushDataBlock (b : SSTableBuilder) : SSTableBuilder :=
  if b.cur_data_block = [] then b
  else
    { b with
      file := b.file ++ b.cur_data_block,
      index_data := mapInsert b.index_data b.last_key_in_block
        ⟨b.cur_data_block_offset, b.cur_data_block.length % 2 ^ 32⟩,
      cur_data_block := [] }

/-- Model of `SSTableBuilder::Add(key, value)`. -/
def SSTableBuilder.Add (b : SSTableBuilder) (key value : List Nat) :
    Bool × SSTableBuilder :=
  if b.finished = true ∨ b.fileOk = false then (false, b)
  else if b.last_key_in_block ≠ [] ∧ b.cur_data_block = [] ∧
      leB key b.last_key_in_block = true then (false, b)
  else
    let entry_size := getEntrySize key value
    let b1 :=
      if b.cur_data_block = [] then
        { b with cur_data_block_offset := b.file.length % 2 ^ 64 }
      else if b.cur_data_block.length + entry_size > DATA_BLOCK_SIZE_THRESHOLD then
        let b' := b.FlushDataBlock
        { b' with cur_data_block_offset := b'.file.length % 2 ^ 64 }
      else b
    (true, { b1 with
      cur_data_block := writeKV b1.cur_data_block key value,
      last_key_in_block := key })

/-- The bytes of the index block `Finish` writes: the sorted index
entries, each as a record whose value is the encoded handle. -/
def encIndex (entries : List (List Nat × BlockHandle)) : List Nat :=
  entries.foldl (fun buf e => writeKV buf e.1 (encHandle e.2)) []

/-- Model of `SSTableBuilder::Finish()`: flush the pending block, write the index
block, write the footer, mark finished. -/
def SSTableBuilder.Finish (b : SSTableBuilder) : Bool × SSTableBuilder :=
  if b.finished = true ∨ b.fileOk = false then (false, b)
  else
    let b1 := b.FlushDataBlock
    let index_block_offset := b1.file.length % 2 ^ 64
    let index_block_buffer := encIndex b1.index_data
    let b2 := { b1 with file := b1.file ++ index_block_buffer }
    let footer : Footer :=
      ⟨⟨index_block_offset, index_block_buffer.length % 2 ^ 32⟩, SSTABLE_MAGIC_NUMBER⟩
    let b3 := { b2 with file := b2.file ++ (encFooter footer).take FOOTER_SIZE }
    (true, { b3 with finished := true })

/-! ## The table reader (`sstablereader.cpp`) -/

/-- Model of `SSTableReader::ReadDataBlock(handle)`: seek to `handle.offset` and
read `handle.size` bytes; fails (short read) when the range does not lie
inside the file. -/
def ReadDataBlock (file : List Nat) (h : BlockHandle) : Option (List Nat) :=
  if h.offset + h.size ≤ file.length then some ((file.drop h.offset).take h.size)
  else none

/-- The while-loop of `SSTableReader::FindInBlock`, with an explicit
iteration bound: every successful `readKV` consumes at least 8 bytes, so
`block_content.length` iterations always cover the whole loop (and the
loop also stops as soon as `readKV` fails, in particular on an empty
view), making the bound inert on every input. -/
def FindInBlockLoop : Nat → List Nat → List Nat → Option (List Nat)
  | 0, _, _ => none
  | fuel + 1, block_content, key =>
    match readKV block_content with
    | none => none
    | some (current_key, current_value, rest) =>
      if current_key = key then some current_value
      else if ltB key current_key then none
      else FindInBlockLoop fuel rest key

/-- Model of `SSTableReader::FindInBlock(block_content, key)`: linear scan of the
records of a block; returns the value of the first record whose key
equals `key`, stops early once a record key exceeds `key`, and treats a
decode failure (or block end) as not-found. -/
def FindInBlock (block_content key : List Nat) : Option (List Nat) :=
  FindInBlockLoop block_content.length block_content key

/-- The index-parsing loop of `SSTableReader::LoadIndex`, with the same
inert iteration bound as `FindInBlockLoop`: split the index block into
records, decode each value as a `BlockHandle`, and insert into the
in-memory map; any decode failure aborts the load. -/
def ParseIndexLoop : Nat → List Nat → List (List Nat × BlockHandle) →
    Option (List (List Nat × BlockHandle))
  | 0, input, acc => if input = [] then some acc else none
  | fuel + 1, input, acc =>
    if input = [] then some acc
    else
      match readKV input with
      | none => none
      | some (last_key, handle_data, rest) =>
        let r := BlockHandle.DecodeFrom ⟨0, 0⟩ handle_data
        if r.1 = false then none
        else ParseIndexLoop fuel rest (mapInsert acc last_key r.2.1)

/-- The parse of a whole index block, as `LoadIndex` runs it. -/
def parseIndexBlock (input : List Nat) :
    Option (List (List Nat × BlockHandle)) :=
  ParseIndexLoop input.length input []

/-- The state of an `SSTableReader`: the opened file's bytes, validity,
and the loaded in-memory index. -/
structure SSTableReader where
  valid : Bool
  index_data : List (List Nat × BlockHandle)
  file : List Nat
  deriving Repr, DecidableEq

/-- Model of `SSTableReader(filename)` on a file holding `file` bytes: perform
`LoadIndex` (footer at `size - FOOTER_SIZE`, magic check, index-block
read, index parse); on any failure the reader is invalid. -/
def SSTableReader.open (file : List Nat) : SSTableReader :=
  if file.length < FOOTER_SIZE then ⟨false, [], file⟩
  else
    let footer_buf := (file.drop (file.length - FOOTER_SIZE)).take FOOTER_SIZE
    let fr := Footer.DecodeFrom ⟨⟨0, 0⟩, 0⟩ footer_buf
    if fr.1 = false then ⟨false, [], file⟩
    else
      match ReadDataBlock file fr.2.index_block_handle with
      | none => ⟨false, [], file⟩
      | some index_block_content =>
        match parseIndexBlock index_block_content with
        | none => ⟨false, [], file⟩
        | some idx => ⟨true, idx, file⟩

/-- Model of `SSTableReader::Get(key)`: nothing on an invalid reader; otherwise
`lower_bound` over the in-memory index, then read that block and scan it. -/
def SSTableReader.Get (r : SSTableReader) (key : List Nat) : Option (List Nat) :=
  if r.valid = false then none
  else
    match lowerBound r.index_data key with
    | none => none
    | some (_, handle) =>
      match ReadDataBlock r.file handle with
      | none => none
      | some block_content => FindInBlock block_content key

/-! ## Codec lemmas used by the claims -/

theorem getD_take {l : List Nat} {n i : Nat} (h : i < n) :
    (l.take n).getD i 0 = l.getD i 0 := by
  simp [List.getD_eq_getElem?_getD, List.getElem?_take, h]

theorem decodeU32_take {l : List Nat} {n : Nat} (h : 4 ≤ n) :
    decodeU32 (l.take n) = decodeU32 l := by
  rw [decodeU32, decodeU32, getD_take (by omega), getD_take (by omega),
    getD_take (by omega), getD_take (by omega)]

theorem decodeU64_take {l : List Nat} {n : Nat} (h : 8 ≤ n) :
    decodeU64 (l.take n) = decodeU64 l := by
  rw [decodeU64, decodeU64, getD_take (by omega), getD_take (by omega),
    getD_take (by omega), getD_take (by omega), getD_take (by omega),
    getD_take (by omega), getD_take (by omega), getD_take (by omega)]

/-- Case-analysis form of `Footer.DecodeFrom`. -/
theorem footer_decodeFrom_eq (f0 : Footer) (input : List Nat) :
    f0.DecodeFrom input =
      if input.length < 20 then (false, f0)
      else if decodeU64 (input.drop 12) ≠ SSTABLE_MAGIC_NUMBER then
        (false, { f0 with magic_number := decodeU64 (input.drop 12) })
      else
        (true, ⟨⟨decodeU64 input, decodeU32 (input.drop 8)⟩,
          decodeU64 (input.drop 12)⟩) := by
  rw [Footer.DecodeFrom]
  have h20 : BLOCK_HANDLE_SIZE + 8 = 20 := rfl
  rw [h20]
  by_cases h1 : input.length < 20
  · simp [h1]
  · simp only [h1, if_false]
    by_cases h2 : decodeU64 (input.drop 12) = SSTABLE_MAGIC_NUMBER
    · simp only [h2, ne_eq, not_true_eq_false, if_false, ite_false]
      have htlen : (input.take 12).length = 12 := by
        rw [List.length_take]; omega
      rw [BlockHandle.DecodeFrom, htlen]
      have h12 : ¬(12 < 12) := by omega
      simp only [h12, if_false]
      have hu64 : decodeU64 (input.take 12) = decodeU64 input :=
        decodeU64_take (by omega)
      have hu32 : decodeU32 ((input.take 12).drop 8) = decodeU32 (input.drop 8) := by
        rw [List.drop_take, decodeU32_take (by omega)]
      simp [hu64, hu32, h2]
    · simp [h2]

/-- C5: `Footer::DecodeFrom` fails exactly when the input holds fewer
than 20 bytes or the 8 bytes at offset 12 do not decode to the magic
constant `0xDEADBEEFCAFEF00D`; on any failure the index-block handle is
left untouched (fail closed), and on success it equals the offset/size
encoded in the first 12 bytes. -/
theorem footer_decode_fails_exactly_on_short_or_bad_magic
    (f0 : Footer) (input : List Nat) :
    ((f0.DecodeFrom input).1 = false ↔
      input.length < 20 ∨ decodeU64 (input.drop 12) ≠ SSTABLE_MAGIC_NUMBER) ∧
    ((f0.DecodeFrom input).1 = false →
      (f0.DecodeFrom input).2.index_block_handle = f0.index_block_handle) ∧
    ((f0.DecodeFrom input).1 = true →
      (f0.DecodeFrom input).2.index_block_handle =
        ⟨decodeU64 input, decodeU32 (input.drop 8)⟩) := by
  rw [footer_decodeFrom_eq]
  by_cases h1 : input.length < 20
  · simp [h1]
  · by_cases h2 : decodeU64 (input.drop 12) = SSTABLE_MAGIC_NUMBER
    · simp [h1, h2]
    · simp [h1, h2]

/-- Witness for C5 at a concrete corrupt input (19 bytes: too short) and
a concrete valid 20-byte footer image. -/
theorem footer_decode_fails_exactly_on_short_or_bad_magic_witness :
    ((Footer.DecodeFrom ⟨⟨7, 7⟩, 0⟩ (List.replicate 19 0)).1 = false ∧
      (Footer.DecodeFrom ⟨⟨7, 7⟩, 0⟩ (List.replicate 19 0)).2.index_block_handle = ⟨7, 7⟩) ∧
    (Footer.DecodeFrom ⟨⟨7, 7⟩, 0⟩
        (encHandle ⟨5, 3⟩ ++ encodeU64 SSTABLE_MAGIC_NUMBER)).2.index_block_handle =
      ⟨decodeU64 (encHandle ⟨5, 3⟩ ++ encodeU64 SSTABLE_MAGIC_NUMBER),
        decodeU32 ((encHandle ⟨5, 3⟩ ++ encodeU64 SSTABLE_MAGIC_NUMBER).drop 8)⟩ := by
  refine ⟨⟨?_, ?_⟩, ?_⟩
  · exact (footer_decode_fails_exactly_on_short_or_bad_magic ⟨⟨7, 7⟩, 0⟩
      (List.replicate 19 0)).1.mpr (by decide)
  · exact (footer_decode_fails_exactly_on_short_or_bad_magic ⟨⟨7, 7⟩, 0⟩
      (List.replicate 19 0)).2.1 (by decide)
  · exact (footer_decode_fails_exactly_on_short_or_bad_magic ⟨⟨7, 7⟩, 0⟩
      (encHandle ⟨5, 3⟩ ++ encodeU64 SSTABLE_MAGIC_NUMBER)).2.2 (by decide)

/-- C6: `readKV` fails exactly when the view is too short for a length
field or a declared `key_len`/`value_len` exceeds the bytes remaining;
it never looks outside the view (all outputs are `take`/`drop` slices of
it), and on success the key and value are exactly the declared ranges
and the remaining view is the input minus the consumed record. -/
theorem readKV_bounds_checked (input : List Nat) :
    (readKV input = none ↔
      input.length < 4 ∨
      (input.drop 4).length < decodeU32 input ∨
      ((input.drop 4).drop (decodeU32 input)).length < 4 ∨
      (((input.drop 4).drop (decodeU32 input)).drop 4).length <
        decodeU32 ((input.drop 4).drop (decodeU32 input))) ∧
    (∀ key value rest, readKV input = some (key, value, rest) →
      key = (input.drop 4).take (decodeU32 input) ∧
      key.length = decodeU32 input ∧
      value = (((input.drop 4).drop (decodeU32 input)).drop 4).take
        (decodeU32 ((input.drop 4).drop (decodeU32 input))) ∧
      value.length = decodeU32 ((input.drop 4).drop (decodeU32 input)) ∧
      rest = (((input.drop 4).drop (decodeU32 input)).drop 4).drop
        (decodeU32 ((input.drop 4).drop (decodeU32 input)))) := by
  simp only [readKV]
  by_cases h1 : input.length < 4
  · rw [if_pos h1]
    exact ⟨⟨fun _ => Or.inl h1, fun _ => rfl⟩,
      fun key value rest h => absurd h (by simp)⟩
  · rw [if_neg h1]
    by_cases h2 : (input.drop 4).length < decodeU32 input
    · rw [if_pos h2]
      exact ⟨⟨fun _ => Or.inr (Or.inl h2), fun _ => rfl⟩,
        fun key value rest h => absurd h (by simp)⟩
    · rw [if_neg h2]
      by_cases h3 : ((input.drop 4).drop (decodeU32 input)).length < 4
      · rw [if_pos h3]
        exact ⟨⟨fun _ => Or.inr (Or.inr (Or.inl h3)), fun _ => rfl⟩,
          fun key value rest h => absurd h (by simp)⟩
      · rw [if_neg h3]
        by_cases h4 : (((input.drop 4).drop (decodeU32 input)).drop 4).length <
            decodeU32 ((input.drop 4).drop (decodeU32 input))
        · rw [if_pos h4]
          exact ⟨⟨fun _ => Or.inr (Or.inr (Or.inr h4)), fun _ => rfl⟩,
            fun key value rest h => absurd h (by simp)⟩
        · rw [if_neg h4]
          constructor
          · constructor
            · intro h; exact absurd h (by simp)
            · intro h
              rcases h with h | h | h | h
              exacts [absurd h h1, absurd h h2, absurd h h3, absurd h h4]
          · intro key value rest h
            simp only [Option.some.injEq, Prod.mk.injEq] at h
            obtain ⟨rfl, rfl, rfl⟩ := h
            refine ⟨rfl, ?_, rfl, ?_, rfl⟩
            · rw [List.length_take]; omega
            · rw [List.length_take]; omega

/-- Witness for C6: the success branch at a concrete record and the
failure branch at a concrete truncated view. -/
theorem readKV_bounds_checked_witness :
    readKV (encRecord [1, 2] [3] ++ [9]) = some ([1, 2], [3], [9]) ∧
    readKV [2, 0, 0, 0, 7] = none := by
  constructor
  · have h := (readKV_bounds_checked (encRecord [1, 2] [3] ++ [9])).2
    rcases hkv : readKV (encRecord [1, 2] [3] ++ [9]) with _ | ⟨key, value, rest⟩
    · exact absurd hkv (by decide)
    · obtain ⟨hk, _, hv, _, hr⟩ := h key value rest hkv
      subst hk hv hr
      decide
  · exact (readKV_bounds_checked [2, 0, 0, 0, 7]).1.mpr (by decide)

/-! ## Builder claims -/

/-- C1 counterexample: an open, unfinished builder that has already
accepted key `[98]` (so its current block is non-empty) accepts the
out-of-order key `[97]` — `Add` returns success, although `[97]` is not
strictly greater than `[98]`. -/
theorem add_out_of_order_mid_block_accepted :
    (SSTableBuilder.init.Add [98] [50]).2.finished = false ∧
    (SSTableBuilder.init.Add [98] [50]).2.fileOk = true ∧
    ltB [98] [97] = false ∧
    ((SSTableBuilder.init.Add [98] [50]).2.Add [97] [49]).1 = true ∧
    ((SSTableBuilder.init.Add [98] [50]).2.Add [97] [49]).2 ≠
      (SSTableBuilder.init.Add [98] [50]).2 := by decide

/-- C1 (amended): the ascending-key check runs only when the record
would start a new block.  On an open, unfinished builder: if the current
block buffer is empty, a previous key exists and the new key is not
strictly greater than it, `Add` fails and leaves the builder unchanged;
if the current block buffer is non-empty the record is accepted
regardless of order; and a key strictly greater than the last added key
is always accepted. -/
theorem add_order_check_only_at_block_start (b : SSTableBuilder)
    (key value : List Nat) (hopen : b.fileOk = true) (hnf : b.finished = false) :
    (b.cur_data_block = [] → b.last_key_in_block ≠ [] →
      leB key b.last_key_in_block = true → b.Add key value = (false, b)) ∧
    (b.cur_data_block ≠ [] → (b.Add key value).1 = true) ∧
    (ltB b.last_key_in_block key = true → (b.Add key value).1 = true) := by
  have hc : ¬(b.finished = true ∨ b.fileOk = false) := by simp [hopen, hnf]
  refine ⟨?_, ?_, ?_⟩
  · intro hcur hlast hle
    rw [SSTableBuilder.Add, if_neg hc, if_pos ⟨hlast, hcur, hle⟩]
  · intro hcur
    rw [SSTableBuilder.Add, if_neg hc, if_neg (by rintro ⟨_, h, _⟩; exact hcur h)]
  · intro hlt
    have hle : leB key b.last_key_in_block = false := by
      rw [leB, hlt]; rfl
    rw [SSTableBuilder.Add, if_neg hc,
      if_neg (by rintro ⟨_, _, h⟩; rw [hle] at h; exact Bool.false_ne_true h)]

/-- Witness for the amended C1: mid-block acceptance of an out-of-order
key, and acceptance of a strictly greater key, on concrete builders. -/
theorem add_order_check_only_at_block_start_witness :
    ((SSTableBuilder.init.Add [98] [50]).2.Add [97] [49]).1 = true ∧
    ((SSTableBuilder.init.Add [98] [50]).2.Add [99] [51]).1 = true :=
  ⟨(add_order_check_only_at_block_start (SSTableBuilder.init.Add [98] [50]).2
      [97] [49] (by decide) (by decide)).2.1 (by decide),
   (add_order_check_only_at_block_start (SSTableBuilder.init.Add [98] [50]).2
      [99] [51] (by decide) (by decide)).2.2 (by decide)⟩

/-- C7: on a successful `Add` whose record would push a non-empty block
buffer past the 128-byte threshold, the buffer is flushed first (bytes
written, index entry recorded) and the record starts a new block at a
freshly captured offset; and flushing an empty buffer is a no-op. -/
theorem add_flush_on_threshold (b : SSTableBuilder) (key value : List Nat)
    (hopen : b.fileOk = true) (hnf : b.finished = false)
    (hcur : b.cur_data_block ≠ [])
    (hover : b.cur_data_block.length + getEntrySize key value >
      DATA_BLOCK_SIZE_THRESHOLD) :
    (b.Add key value).1 = true ∧
    (b.Add key value).2.file = b.file ++ b.cur_data_block ∧
    (b.Add key value).2.cur_data_block = encRecord key value ∧
    (b.Add key value).2.cur_data_block_offset =
      (b.file ++ b.cur_data_block).length % 2 ^ 64 ∧
    (b.Add key value).2.index_data = mapInsert b.index_data b.last_key_in_block
      ⟨b.cur_data_block_offset, b.cur_data_block.length % 2 ^ 32⟩ ∧
    (∀ b' : SSTableBuilder, b'.cur_data_block = [] → b'.FlushDataBlock = b') := by
  have hc : ¬(b.finished = true ∨ b.fileOk = false) := by simp [hopen, hnf]
  have hflush : b.FlushDataBlock =
      { b with
        file := b.file ++ b.cur_data_block,
        index_data := mapInsert b.index_data b.last_key_in_block
          ⟨b.cur_data_block_offset, b.cur_data_block.length % 2 ^ 32⟩,
        cur_data_block := [] } := by
    rw [SSTableBuilder.FlushDataBlock, if_neg hcur]
  rw [SSTableBuilder.Add, if_neg hc,
    if_neg (by rintro ⟨_, h, _⟩; exact hcur h)]
  simp only [if_neg hcur, if_pos hover, hflush, writeKV, List.nil_append]
  refine ⟨?_, ?_, ?_, ?_, ?_, fun b' h => by
    rw [SSTableBuilder.FlushDataBlock, if_pos h]⟩ <;> trivial

/-- Witness for C7 on a concrete builder: one 69-byte record in the
buffer, a second 69-byte record forces a flush. -/
theorem add_flush_on_threshold_witness :
    ((SSTableBuilder.init.Add [97] (List.replicate 60 7)).2.Add [98]
      (List.replicate 60 8)).1 = true ∧
    ((SSTableBuilder.init.Add [97] (List.replicate 60 7)).2.Add [98]
      (List.replicate 60 8)).2.cur_data_block =
      encRecord [98] (List.replicate 60 8) := by
  have h := add_flush_on_threshold (SSTableBuilder.init.Add [97] (List.replicate 60 7)).2
    [98] (List.replicate 60 8) (by decide) (by decide) (by decide) (by decide)
  exact ⟨h.1, h.2.2.1⟩

/-- C8: an `Add` or `Finish` on a builder whose file failed to open, or
after a successful `Finish`, fails and leaves the builder (and hence the
written bytes) completely unchanged. -/
theorem add_finish_rejected_after_finish_or_failed_open (b : SSTableBuilder) :
    (b.fileOk = false →
      (∀ key value, b.Add key value = (false, b)) ∧ b.Finish = (false, b)) ∧
    (b.Finish.1 = true →
      (∀ key value, b.Finish.2.Add key value = (false, b.Finish.2)) ∧
      b.Finish.2.Finish = (false, b.Finish.2)) := by
  constructor
  · intro hbad
    have hc : b.finished = true ∨ b.fileOk = false := Or.inr hbad
    exact ⟨fun key value => by rw [SSTableBuilder.Add, if_pos hc],
      by rw [SSTableBuilder.Finish, if_pos hc]⟩
  · intro hsucc
    have hfin : b.Finish.2.finished = true := by
      rw [SSTableBuilder.Finish] at hsucc ⊢
      by_cases hc : b.finished = true ∨ b.fileOk = false
      · rw [if_pos hc] at hsucc
        exact absurd hsucc (by simp)
      · rw [if_neg hc]
    have hc2 : b.Finish.2.finished = true ∨ b.Finish.2.fileOk = false := Or.inl hfin
    exact ⟨fun key value => by rw [SSTableBuilder.Add, if_pos hc2],
      by rw [SSTableBuilder.Finish, if_pos hc2]⟩

/-- Witness for C8: a concrete failed-open builder and the concrete
builder obtained by finishing a fresh one. -/
theorem add_finish_rejected_after_finish_or_failed_open_witness :
    (SSTableBuilder.mk false false [] [] [] 0 []).Add [1] [2] =
      (false, SSTableBuilder.mk false false [] [] [] 0 []) ∧
    SSTableBuilder.init.Finish.2.Add [1] [2] =
      (false, SSTableBuilder.init.Finish.2) ∧
    SSTableBuilder.init.Finish.2.Finish = (false, SSTableBuilder.init.Finish.2) :=
  ⟨((add_finish_rejected_after_finish_or_failed_open
      (SSTableBuilder.mk false false [] [] [] 0 [])).1 rfl).1 [1] [2],
   ((add_finish_rejected_after_finish_or_failed_open SSTableBuilder.init).2
      (by decide)).1 [1] [2],
   ((add_finish_rejected_after_finish_or_failed_open SSTableBuilder.init).2
      (by decide)).2⟩

/-- C9: after any `Add` (of a record of realistic size, below `2^32`
bytes), the current block buffer either holds at most 128 bytes or is
exactly one encoded record; and a single record larger than the
threshold is accepted into an empty buffer, becoming an oversized
block — `Add` never rejects a record for its size. -/
theorem add_block_bounded_or_single_record (b : SSTableBuilder)
    (key value : List Nat) (hsize : 8 + key.length + value.length < 2 ^ 32)
    (hinv : b.cur_data_block.length ≤ DATA_BLOCK_SIZE_THRESHOLD ∨
      ∃ k v, b.cur_data_block = encRecord k v) :
    ((b.Add key value).2.cur_data_block.length ≤ DATA_BLOCK_SIZE_THRESHOLD ∨
      ∃ k v, (b.Add key value).2.cur_data_block = encRecord k v) ∧
    (b.fileOk = true → b.finished = false → b.cur_data_block = [] →
      b.last_key_in_block = [] ∨ leB key b.last_key_in_block = false →
      DATA_BLOCK_SIZE_THRESHOLD < 8 + key.length + value.length →
      (b.Add key value).1 = true ∧
      (b.Add key value).2.cur_data_block = encRecord key value ∧
      DATA_BLOCK_SIZE_THRESHOLD < (b.Add key value).2.cur_data_block.length) := by
  have hentry : getEntrySize key value = 8 + key.length + value.length := by
    rw [getEntrySize, Nat.mod_eq_of_lt (by omega)]
    omega
  constructor
  · by_cases hc : b.finished = true ∨ b.fileOk = false
    · rw [SSTableBuilder.Add, if_pos hc]
      exact hinv
    · rw [SSTableBuilder.Add, if_neg hc]
      by_cases hrej : b.last_key_in_block ≠ [] ∧ b.cur_data_block = [] ∧
          leB key b.last_key_in_block = true
      · rw [if_pos hrej]
        exact hinv
      · rw [if_neg hrej]
        by_cases hcur : b.cur_data_block = []
        · simp only [if_pos hcur]
          exact Or.inr ⟨key, value, by simp [writeKV, hcur]⟩
        · simp only [if_neg hcur]
          by_cases hover : b.cur_data_block.length + getEntrySize key value >
              DATA_BLOCK_SIZE_THRESHOLD
          · simp only [if_pos hover]
            refine Or.inr ⟨key, value, ?_⟩
            simp [writeKV, SSTableBuilder.FlushDataBlock, if_neg hcur]
          · simp only [if_neg hover]
            left
            simp only [writeKV, List.length_append, encRecord_length]
            simp only [gt_iff_lt, not_lt, hentry] at hover
            omega
  · intro hopen hnf hcur hord hbig
    have hc : ¬(b.finished = true ∨ b.fileOk = false) := by simp [hopen, hnf]
    have hrej : ¬(b.last_key_in_block ≠ [] ∧ b.cur_data_block = [] ∧
        leB key b.last_key_in_block = true) := by
      rintro ⟨h1, _, h3⟩
      rcases hord with h | h
      · exact h1 h
      · rw [h] at h3; exact Bool.false_ne_true h3
    rw [SSTableBuilder.Add, if_neg hc, if_neg hrej]
    simp only [if_pos hcur]
    refine ⟨by trivial, by simp [writeKV, hcur], ?_⟩
    simp only [writeKV, hcur, List.nil_append, encRecord_length]
    omega

set_option maxRecDepth 4000 in
/-- Witness for C9: a 209-byte record (8 + 1 + 200) is accepted into a
fresh builder and the resulting single-record block exceeds the
threshold. -/
theorem add_block_bounded_or_single_record_witness :
    (SSTableBuilder.init.Add [97] (List.replicate 200 5)).1 = true ∧
    DATA_BLOCK_SIZE_THRESHOLD <
      (SSTableBuilder.init.Add [97] (List.replicate 200 5)).2.cur_data_block.length := by
  have h := add_block_bounded_or_single_record SSTableBuilder.init [97]
    (List.replicate 200 5) (by decide) (Or.inl (by decide))
  have h2 := h.2 rfl rfl rfl (Or.inl rfl) (by decide)
  exact ⟨h2.1, h2.2.2⟩

/-! ## Reader claims -/

/-- C4: a file shorter than the 20-byte footer, or a file whose trailing
8 bytes are not the encoded magic constant, yields an invalid reader;
and `Get` on an invalid reader returns not-found for every key (the
check precedes any block read in `SSTableReader::Get`). -/
theorem invalid_reader_always_not_found (file : List Nat)
    (hbytes : ∀ x ∈ file, x < 256) :
    (file.length < FOOTER_SIZE → (SSTableReader.open file).valid = false) ∧
    (FOOTER_SIZE ≤ file.length →
      file.drop (file.length - 8) ≠ encodeU64 SSTABLE_MAGIC_NUMBER →
      (SSTableReader.open file).valid = false) ∧
    (∀ r : SSTableReader, r.valid = false → ∀ key, r.Get key = none) := by
  refine ⟨?_, ?_, ?_⟩
  · intro hshort
    rw [SSTableReader.open, if_pos hshort]
  · intro hlen hbad
    have hF : FOOTER_SIZE = 20 := rfl
    rw [hF] at hlen
    have hfb : ((file.drop (file.length - FOOTER_SIZE)).take FOOTER_SIZE).length = 20 := by
      rw [List.length_take, List.length_drop, hF]
      omega
    have hdrop12 : ((file.drop (file.length - FOOTER_SIZE)).take FOOTER_SIZE).drop 12 =
        (file.drop (file.length - 8)).take 8 := by
      rw [hF, List.drop_take, List.drop_drop]
      congr 2
      omega
    have hmagic : decodeU64
        (((file.drop (file.length - FOOTER_SIZE)).take FOOTER_SIZE).drop 12) ≠
        SSTABLE_MAGIC_NUMBER := by
      rw [hdrop12, decodeU64_take (by omega)]
      intro hEq
      apply hbad
      have hlen8 : (file.drop (file.length - 8)).length = 8 := by
        rw [List.length_drop]; omega
      have hb : ∀ x ∈ file.drop (file.length - 8), x < 256 := fun x hx =>
        hbytes x (List.mem_of_mem_drop hx)
      rw [← encodeU64_decodeU64 (file.drop (file.length - 8)) hlen8 hb, hEq]
    have hfail : (Footer.DecodeFrom ⟨⟨0, 0⟩, 0⟩
        ((file.drop (file.length - FOOTER_SIZE)).take FOOTER_SIZE)).1 = false := by
      rw [footer_decodeFrom_eq, hfb, if_neg (by omega), if_pos hmagic]
    simp only [SSTableReader.open]
    rw [if_neg (by omega), if_pos hfail]
  · intro r hr key
    rw [SSTableReader.Get, if_pos hr]

/-- Witness for C4: a 3-byte file, a 20-byte all-zero file (wrong
magic), and a concrete invalid reader. -/
theorem invalid_reader_always_not_found_witness :
    (SSTableReader.open [0, 1, 2]).valid = false ∧
    (SSTableReader.open (List.replicate 20 0)).valid = false ∧
    SSTableReader.Get ⟨false, [], []⟩ [7] = none :=
  ⟨(invalid_reader_always_not_found [0, 1, 2] (by decide)).1 (by decide),
   (invalid_reader_always_not_found (List.replicate 20 0) (by decide)).2.1
     (by decide) (by decide),
   (invalid_reader_always_not_found [] (by decide)).2.2 ⟨false, [], []⟩ rfl [7]⟩

/-- C10: `Finish` on a fresh builder with no `Add` calls succeeds and
writes exactly a 20-byte file — an empty index block (handle offset 0,
size 0) and the footer; a reader opened on it is valid with an empty
index, and `Get` returns not-found for every key (the empty-index
`lower_bound` fails before any block read). -/
theorem finish_empty_builder_roundtrip :
    SSTableBuilder.init.Finish.1 = true ∧
    SSTableBuilder.init.Finish.2.file = encFooter ⟨⟨0, 0⟩, SSTABLE_MAGIC_NUMBER⟩ ∧
    SSTableBuilder.init.Finish.2.file.length = 20 ∧
    (SSTableReader.open SSTableBuilder.init.Finish.2.file).valid = true ∧
    (SSTableReader.open SSTableBuilder.init.Finish.2.file).index_data = [] ∧
    ∀ key, (SSTableReader.open SSTableBuilder.init.Finish.2.file).Get key = none := by
  have hval : (SSTableReader.open SSTableBuilder.init.Finish.2.file).valid = true := by
    decide
  have hidx : (SSTableReader.open SSTableBuilder.init.Finish.2.file).index_data = [] := by
    decide
  refine ⟨by decide, by decide, by decide, hval, hidx, ?_⟩
  intro key
  rw [SSTableReader.Get, if_neg (by simp [hval]), hidx]
  rfl

/-! ## Block-level view of a build

To reason about a whole `Add*`-then-`Finish` run, the records are
grouped into the data blocks the builder actually produces: `packStep`
mirrors the block-splitting decision of `SSTableBuilder::Add`, and the
builder state is characterised against the resulting partition. -/

/-- A data block as a list of records. -/
abbrev Block := List (List Nat × List Nat)

/-- The bytes of a data block: the concatenation of its encoded records
(this is what repeated `writeKV` into the block buffer accumulates). -/
def encBlock (blk : Block) : List Nat :=
  (blk.map fun p => encRecord p.1 p.2).flatten

/-- The bytes of a sequence of flushed data blocks. -/
def encBlocks (bs : List Block) : List Nat :=
  (bs.map encBlock).flatten

/-- The key of the last record of a block (`last_key_in_block_`);
`[]` for an empty block. -/
def blkLast (blk : Block) : List Nat :=
  (blk.getLast?.map Prod.fst).getD []

theorem encBlock_nil : encBlock [] = [] := rfl

theorem encBlock_append (a b : Block) :
    encBlock (a ++ b) = encBlock a ++ encBlock b := by
  simp [encBlock]

theorem encBlock_cons (p : List Nat × List Nat) (blk : Block) :
    encBlock (p :: blk) = encRecord p.1 p.2 ++ encBlock blk := by
  simp [encBlock]

theorem encBlock_singleton (p : List Nat × List Nat) :
    encBlock [p] = encRecord p.1 p.2 := by
  simp [encBlock]

theorem encBlock_ne_nil {blk : Block} (h : blk ≠ []) : encBlock blk ≠ [] := by
  cases blk with
  | nil => exact absurd rfl h
  | cons p rest =>
    rw [encBlock_cons]
    intro hc
    exact encRecord_ne_nil p.1 p.2 (by
      rcases List.append_eq_nil.mp hc with ⟨h1, _⟩
      exact h1)

theorem encBlocks_nil : encBlocks [] = [] := rfl

theorem encBlocks_append (a b : List Block) :
    encBlocks (a ++ b) = encBlocks a ++ encBlocks b := by
  simp [encBlocks]

theorem encBlocks_cons (blk : Block) (bs : List Block) :
    encBlocks (blk :: bs) = encBlock blk ++ encBlocks bs := by
  simp [encBlocks]

theorem encBlocks_singleton (blk : Block) : encBlocks [blk] = encBlock blk := by
  simp [encBlocks]

theorem blkLast_append_singleton (blk : Block) (p : List Nat × List Nat) :
    blkLast (blk ++ [p]) = p.1 := by
  simp [blkLast]

theorem blkLast_singleton (p : List Nat × List Nat) : blkLast [p] = p.1 := by
  simp [blkLast]

/-- The last record of a non-empty block is a member with key `blkLast`. -/
theorem blkLast_mem {blk : Block} (h : blk ≠ []) :
    ∃ v, (blkLast blk, v) ∈ blk := by
  have hg : blk.getLast h ∈ blk := List.getLast_mem h
  refine ⟨(blk.getLast h).2, ?_⟩
  have : blkLast blk = (blk.getLast h).1 := by
    rw [blkLast, List.getLast?_eq_getLast blk h]
    rfl
  rw [this]
  simp [hg]

/-- The block-splitting step: where `Add` puts one more record, given
the blocks flushed so far and the currently accumulating block. -/
def packStep (st : List Block × Block) (p : List Nat × List Nat) :
    List Block × Block :=
  if st.2 = [] then (st.1, [p])
  else if (encBlock st.2).length + getEntrySize p.1 p.2 >
      DATA_BLOCK_SIZE_THRESHOLD then (st.1 ++ [st.2], [p])
  else (st.1, st.2 ++ [p])

/-- Folding the block-splitting step over a record sequence. -/
def packFold (st : List Block × Block) (ps : List (List Nat × List Nat)) :
    List Block × Block :=
  ps.foldl packStep st

/-- All blocks of a final builder state: the flushed ones plus the
pending one if non-empty (as `Finish` flushes it). -/
def allBlocks (st : List Block × Block) : List Block :=
  if st.2 = [] then st.1 else st.1 ++ [st.2]

/-- Records, in order, held by a packing state. -/
def contentOf (st : List Block × Block) : List (List Nat × List Nat) :=
  st.1.flatten ++ st.2

theorem contentOf_packStep (st : List Block × Block) (p : List Nat × List Nat) :
    contentOf (packStep st p) = contentOf st ++ [p] := by
  rw [packStep]
  by_cases h1 : st.2 = []
  · simp [contentOf, h1]
  · rw [if_neg h1]
    by_cases h2 : (encBlock st.2).length + getEntrySize p.1 p.2 >
        DATA_BLOCK_SIZE_THRESHOLD
    · simp [contentOf, h2]
    · simp [contentOf, h2]

theorem contentOf_packFold (ps : List (List Nat × List Nat))
    (st : List Block × Block) :
    contentOf (packFold st ps) = contentOf st ++ ps := by
  induction ps generalizing st with
  | nil => simp [packFold]
  | cons p rest ih =>
    rw [packFold, List.foldl_cons, ← packFold, ih, contentOf_packStep]
    simp

/-- The records of the final block partition are exactly the input. -/
theorem flatten_allBlocks_packFold (ps : List (List Nat × List Nat)) :
    (allBlocks (packFold ([], []) ps)).flatten = ps := by
  have h := contentOf_packFold ps ([], [])
  rw [allBlocks]
  by_cases hc : (packFold ([], []) ps).2 = []
  · rw [if_pos hc]
    have := h
    rw [contentOf, hc, List.append_nil] at this
    simpa [contentOf] using this
  · rw [if_neg hc]
    have := h
    rw [contentOf] at this
    simpa [contentOf] using this

/-- Blocks in the flushed list are never empty. -/
theorem packFold_blocks_ne_nil (ps : List (List Nat × List Nat))
    (st : List Block × Block) (hst : ∀ blk ∈ st.1, blk ≠ []) :
    ∀ blk ∈ (packFold st ps).1, blk ≠ [] := by
  induction ps generalizing st with
  | nil => exact hst
  | cons p rest ih =>
    rw [packFold, List.foldl_cons, ← packFold]
    refine ih _ ?_
    rw [packStep]
    by_cases h1 : st.2 = []
    · rw [if_pos h1]; exact hst
    · rw [if_neg h1]
      by_cases h2 : (encBlock st.2).length + getEntrySize p.1 p.2 >
          DATA_BLOCK_SIZE_THRESHOLD
      · rw [if_pos h2]
        intro blk hblk
        rcases List.mem_append.mp hblk with hm | hm
        · exact hst blk hm
        · rw [List.mem_singleton.mp hm]; exact h1
      · rw [if_neg h2]; exact hst

theorem allBlocks_ne_nil (ps : List (List Nat × List Nat)) :
    ∀ blk ∈ allBlocks (packFold ([], []) ps), blk ≠ [] := by
  intro blk hblk
  rw [allBlocks] at hblk
  by_cases hc : (packFold ([], []) ps).2 = []
  · rw [if_pos hc] at hblk
    exact packFold_blocks_ne_nil ps ([], []) (by simp) blk hblk
  · rw [if_neg hc] at hblk
    rcases List.mem_append.mp hblk with hm | hm
    · exact packFold_blocks_ne_nil ps ([], []) (by simp) blk hm
    · rw [List.mem_singleton.mp hm]; exact hc

/-- The index entries the builder accumulates for a run of blocks laid
out starting at byte `off`: for each block, its last key mapped to the
handle `(offset as u64, size as u32)`. -/
def indexOfBlocks (off : Nat) : List Block → List (List Nat × BlockHandle)
  | [] => []
  | blk :: rest =>
    (blkLast blk, ⟨off % 2 ^ 64, (encBlock blk).length % 2 ^ 32⟩) ::
      indexOfBlocks (off + (encBlock blk).length) rest

theorem indexOfBlocks_append_singleton (off : Nat) (bs : List Block) (c : Block) :
    indexOfBlocks off (bs ++ [c]) =
      indexOfBlocks off bs ++
        [(blkLast c, ⟨(off + (encBlocks bs).length) % 2 ^ 64,
          (encBlock c).length % 2 ^ 32⟩)] := by
  induction bs generalizing off with
  | nil => simp [indexOfBlocks, encBlocks]
  | cons blk rest ih =>
    rw [List.cons_append, indexOfBlocks, ih, indexOfBlocks, encBlocks_cons]
    simp only [List.cons_append, List.length_append]
    rw [Nat.add_assoc]

theorem mem_indexOfBlocks {e : List Nat × BlockHandle} {off : Nat}
    {blocks : List Block} (h : e ∈ indexOfBlocks off blocks) :
    ∃ blk ∈ blocks, e.1 = blkLast blk := by
  induction blocks generalizing off with
  | nil => simp [indexOfBlocks] at h
  | cons blk rest ih =>
    rw [indexOfBlocks] at h
    rcases List.mem_cons.mp h with hm | hm
    · exact ⟨blk, by simp, by rw [hm]⟩
    · obtain ⟨b, hb, he⟩ := ih hm
      exact ⟨b, by simp [hb], he⟩

theorem indexOfBlocks_length (off : Nat) (blocks : List Block) :
    (indexOfBlocks off blocks).length = blocks.length := by
  induction blocks generalizing off with
  | nil => rfl
  | cons blk rest ih => rw [indexOfBlocks]; simp [ih]

/-- Cross-block ordering gives ascending index keys. -/
theorem indexOfBlocks_pairwise (off : Nat) (blocks : List Block)
    (hne : ∀ blk ∈ blocks, blk ≠ [])
    (hcross : List.Pairwise
      (fun b1 b2 => ∀ p ∈ b1, ∀ q ∈ b2, ltB p.1 q.1 = true) blocks) :
    List.Pairwise (fun e1 e2 => ltB e1.1 e2.1 = true)
      (indexOfBlocks off blocks) := by
  induction blocks generalizing off with
  | nil => exact List.Pairwise.nil
  | cons blk rest ih =>
    rw [indexOfBlocks]
    rcases List.pairwise_cons.mp hcross with ⟨hhead, htail⟩
    refine List.Pairwise.cons ?_ (ih _ (fun b hb => hne b (by simp [hb])) htail)
    intro e he
    obtain ⟨b, hb, hkey⟩ := mem_indexOfBlocks he
    obtain ⟨v1, hv1⟩ := blkLast_mem (hne blk (by simp))
    obtain ⟨v2, hv2⟩ := blkLast_mem (hne b (by simp [hb]))
    have := hhead b hb (blkLast blk, v1) hv1 (blkLast b, v2) hv2
    rw [hkey]
    exact this

/-! ## Size accounting -/

/-- The total encoded size of a record sequence. -/
def entriesSize (ps : List (List Nat × List Nat)) : Nat :=
  (ps.map fun p => 8 + p.1.length + p.2.length).sum

/-- Realistic-size hypothesis for a whole build: everything the format
stores in a `uint32_t` stays below `2^32`. -/
def sizeOK (ps : List (List Nat × List Nat)) : Prop :=
  entriesSize ps + 20 * ps.length + 20 < 2 ^ 32

theorem le_sum_of_mem {l : List Nat} {a : Nat} (h : a ∈ l) : a ≤ l.sum := by
  induction l with
  | nil => simp at h
  | cons x xs ih =>
    rcases List.mem_cons.mp h with rfl | hm
    · simp
    · have := ih hm
      simp only [List.sum_cons]
      omega

theorem encBlock_length (blk : Block) :
    (encBlock blk).length = entriesSize blk := by
  induction blk with
  | nil => rfl
  | cons p rest ih =>
    rw [encBlock_cons, List.length_append, ih, encRecord_length]
    simp [entriesSize]

theorem encBlocks_length (bs : List Block) :
    (encBlocks bs).length = entriesSize bs.flatten := by
  induction bs with
  | nil => rfl
  | cons blk rest ih =>
    rw [encBlocks_cons, List.length_append, ih, encBlock_length]
    simp only [List.flatten_cons, entriesSize, List.map_append, List.sum_append]

theorem entriesSize_append (a b : List (List Nat × List Nat)) :
    entriesSize (a ++ b) = entriesSize a + entriesSize b := by
  simp [entriesSize]

/-- Each record of a sequence contributes its size to the total. -/
theorem entry_le_entriesSize {p : List Nat × List Nat}
    {ps : List (List Nat × List Nat)} (h : p ∈ ps) :
    8 + p.1.length + p.2.length ≤ entriesSize ps :=
  le_sum_of_mem (List.mem_map_of_mem _ h)

theorem length_le_flatten_length {bs : List Block}
    (hne : ∀ blk ∈ bs, blk ≠ []) : bs.length ≤ bs.flatten.length := by
  induction bs with
  | nil => simp
  | cons blk rest ih =>
    have h1 : 1 ≤ blk.length := by
      have := hne blk (by simp)
      cases blk with
      | nil => exact absurd rfl this
      | cons _ _ => simp
    have h2 := ih (fun b hb => hne b (by simp [hb]))
    simp only [List.length_cons, List.flatten_cons, List.length_append]
    omega

theorem sum_lasts_le (bs : List Block) (hne : ∀ blk ∈ bs, blk ≠ []) :
    (bs.map fun b => (blkLast b).length).sum ≤
      (bs.flatten.map fun p => p.1.length).sum := by
  induction bs with
  | nil => simp
  | cons blk rest ih =>
    have h1 : (blkLast blk).length ≤ (blk.map fun p => p.1.length).sum := by
      obtain ⟨v, hv⟩ := blkLast_mem (hne blk (by simp))
      exact le_sum_of_mem (List.mem_map_of_mem _ hv)
    have h2 := ih (fun b hb => hne b (by simp [hb]))
    simp only [List.map_cons, List.sum_cons, List.flatten_cons, List.map_append,
      List.sum_append]
    omega

theorem keylen_sum_le_entriesSize (ps : List (List Nat × List Nat)) :
    (ps.map fun p => p.1.length).sum ≤ entriesSize ps := by
  induction ps with
  | nil => simp [entriesSize]
  | cons p rest ih =>
    simp only [List.map_cons, List.sum_cons, entriesSize] at *
    omega

/-! ## The builder simulates the block partition -/

/-- How a builder state realises a block partition: the file holds the
flushed blocks, the buffer holds the current block, the in-memory index
maps each flushed block's last key to its handle, and the offset tag
points at the end of the flushed bytes. -/
structure BuildInv (fl : List Block) (cur : Block) (b : SSTableBuilder) : Prop where
  hok : b.fileOk = true
  hfin : b.finished = false
  hfile : b.file = encBlocks fl
  hcur : b.cur_data_block = encBlock cur
  hidx : b.index_data = indexOfBlocks 0 fl
  hoff : b.cur_data_block_offset = (encBlocks fl).length % 2 ^ 64
  hlast : b.last_key_in_block = blkLast cur
  hinit : cur = [] → fl = []
  horder : cur ≠ [] → ∀ blk ∈ fl, ltB (blkLast blk) (blkLast cur) = true

theorem buildInv_init : BuildInv [] [] SSTableBuilder.init :=
  ⟨rfl, rfl, rfl, rfl, rfl, rfl, rfl, fun _ => rfl, fun h => absurd rfl h⟩

theorem packStep_snd_spec (st : List Block × Block) (p : List Nat × List Nat) :
    blkLast (packStep st p).2 = p.1 ∧ (packStep st p).2 ≠ [] := by
  rw [packStep]
  by_cases h1 : st.2 = []
  · rw [if_pos h1]
    exact ⟨blkLast_singleton p, by simp⟩
  · rw [if_neg h1]
    by_cases h2 : (encBlock st.2).length + getEntrySize p.1 p.2 >
        DATA_BLOCK_SIZE_THRESHOLD
    · rw [if_pos h2]
      exact ⟨blkLast_singleton p, by simp⟩
    · rw [if_neg h2]
      exact ⟨blkLast_append_singleton st.2 p, by simp⟩

/-- One `Add` under the invariant: it succeeds and moves the builder to
the state of the next packing step. -/
theorem Add_simulates_packStep (fl : List Block) (cur : Block)
    (b : SSTableBuilder) (key value : List Nat) (hinv : BuildInv fl cur b)
    (hkey : cur ≠ [] → ltB (blkLast cur) key = true) :
    (b.Add key value).1 = true ∧
    BuildInv (packStep (fl, cur) (key, value)).1
      (packStep (fl, cur) (key, value)).2 (b.Add key value).2 := by
  have hc : ¬(b.finished = true ∨ b.fileOk = false) := by
    simp [hinv.hok, hinv.hfin]
  by_cases hcur : cur = []
  · have hfl : fl = [] := hinv.hinit hcur
    have hcurb : b.cur_data_block = [] := by rw [hinv.hcur, hcur]; rfl
    have hrej : ¬(b.last_key_in_block ≠ [] ∧ b.cur_data_block = [] ∧
        leB key b.last_key_in_block = true) := by
      rintro ⟨h1, _, _⟩
      exact h1 (by rw [hinv.hlast, hcur]; rfl)
    have hstep : packStep (fl, cur) (key, value) = (fl, [(key, value)]) := by
      rw [packStep, if_pos hcur]
    rw [SSTableBuilder.Add, if_neg hc, if_neg hrej]
    simp only [if_pos hcurb, hstep]
    refine ⟨by trivial, ?_⟩
    exact {
      hok := hinv.hok
      hfin := hinv.hfin
      hfile := hinv.hfile
      hcur := by
        simp only [writeKV, hcurb, List.nil_append, encBlock_singleton]
      hidx := hinv.hidx
      hoff := by rw [hinv.hfile]
      hlast := (blkLast_singleton (key, value)).symm
      hinit := fun h => absurd h (by simp)
      horder := by
        intro _ blk hblk
        rw [hfl] at hblk
        simp at hblk }
  · have hcurb : b.cur_data_block ≠ [] := by
      rw [hinv.hcur]
      exact encBlock_ne_nil hcur
    have hrej : ¬(b.last_key_in_block ≠ [] ∧ b.cur_data_block = [] ∧
        leB key b.last_key_in_block = true) := by
      rintro ⟨_, h2, _⟩
      exact hcurb h2
    rw [SSTableBuilder.Add, if_neg hc, if_neg hrej]
    simp only [if_neg hcurb]
    by_cases hover : b.cur_data_block.length + getEntrySize key value >
        DATA_BLOCK_SIZE_THRESHOLD
    · have hover' : (encBlock cur).length + getEntrySize key value >
          DATA_BLOCK_SIZE_THRESHOLD := by rw [← hinv.hcur]; exact hover
      have hstep : packStep (fl, cur) (key, value) = (fl ++ [cur], [(key, value)]) := by
        rw [packStep, if_neg hcur, if_pos hover']
      have hflush : b.FlushDataBlock =
          { b with
            file := b.file ++ b.cur_data_block,
            index_data := mapInsert b.index_data b.last_key_in_block
              ⟨b.cur_data_block_offset, b.cur_data_block.length % 2 ^ 32⟩,
            cur_data_block := [] } := by
        rw [SSTableBuilder.FlushDataBlock, if_neg hcurb]
      have hidx2 : mapInsert b.index_data b.last_key_in_block
          ⟨b.cur_data_block_offset, b.cur_data_block.length % 2 ^ 32⟩ =
          indexOfBlocks 0 (fl ++ [cur]) := by
        rw [hinv.hidx, hinv.hlast, hinv.hcur, hinv.hoff,
          mapInsert_append _ _ _ ?_, indexOfBlocks_append_singleton]
        · simp
        · intro e he
          obtain ⟨blk, hblk, hkey1⟩ := mem_indexOfBlocks he
          rw [hkey1]
          exact hinv.horder hcur blk hblk
      simp only [if_pos hover, hstep, hflush]
      refine ⟨by trivial, ?_⟩
      exact {
        hok := hinv.hok
        hfin := hinv.hfin
        hfile := by
          simp only [hinv.hfile, hinv.hcur, encBlocks_append, encBlocks_singleton]
        hcur := by simp [writeKV, encBlock_singleton]
        hidx := by simp only [hidx2]
        hoff := by
          simp only [hinv.hfile, hinv.hcur, encBlocks_append, encBlocks_singleton]
        hlast := (blkLast_singleton (key, value)).symm
        hinit := fun h => absurd h (by simp)
        horder := by
          intro _ blk hblk
          rw [blkLast_singleton]
          rcases List.mem_append.mp hblk with hm | hm
          · exact ltB_trans (hinv.horder hcur blk hm) (hkey hcur)
          · rw [List.mem_singleton.mp hm]
            exact hkey hcur }
    · have hover' : ¬((encBlock cur).length + getEntrySize key value >
          DATA_BLOCK_SIZE_THRESHOLD) := by rw [← hinv.hcur]; exact hover
      have hstep : packStep (fl, cur) (key, value) = (fl, cur ++ [(key, value)]) := by
        rw [packStep, if_neg hcur, if_neg hover']
      simp only [if_neg hover, hstep]
      refine ⟨by trivial, ?_⟩
      exact {
        hok := hinv.hok
        hfin := hinv.hfin
        hfile := hinv.hfile
        hcur := by
          simp only [writeKV, hinv.hcur, encBlock_append, encBlock_singleton]
        hidx := hinv.hidx
        hoff := hinv.hoff
        hlast := (blkLast_append_singleton cur (key, value)).symm
        hinit := fun h => absurd h (by simp)
        horder := by
          intro _ blk hblk
          rw [blkLast_append_singleton]
          exact ltB_trans (hinv.horder hcur blk hblk) (hkey hcur) }

/-- Predicate `ascChain last ps`: the keys of `ps` strictly ascend, starting
strictly above `last`. -/
def ascChain : List Nat → List (List Nat × List Nat) → Bool
  | _, [] => true
  | last, p :: rest => ltB last p.1 && ascChain p.1 rest

/-- Strictly ascending keys, no constraint on the first one. -/
def ascPairs : List (List Nat × List Nat) → Bool
  | [] => true
  | p :: rest => ascChain p.1 rest

/-- Adding every record of a sequence (keeping only the final state, as
the C++ driver does). -/
def addAll (b : SSTableBuilder) (ps : List (List Nat × List Nat)) :
    SSTableBuilder :=
  ps.foldl (fun b p => (b.Add p.1 p.2).2) b

/-- The bytes of the table built from a record sequence: open a fresh
builder, `Add` every record, `Finish`. -/
def buildFile (ps : List (List Nat × List Nat)) : List Nat :=
  (addAll SSTableBuilder.init ps).Finish.2.file

/-- The on-disk image `Finish` produces for a run of data blocks:
data blocks, index block, footer. -/
def tableFile (blocks : List Block) : List Nat :=
  encBlocks blocks ++ encIndex (indexOfBlocks 0 blocks) ++
    encFooter ⟨⟨(encBlocks blocks).length % 2 ^ 64,
      (encIndex (indexOfBlocks 0 blocks)).length % 2 ^ 32⟩, SSTABLE_MAGIC_NUMBER⟩

/-- Running `addAll` under the invariant lands in the packing state. -/
theorem addAll_simulates_packFold (ps : List (List Nat × List Nat))
    (st : List Block × Block) (b : SSTableBuilder)
    (hinv : BuildInv st.1 st.2 b)
    (hasc : (st.2 = [] ∧ ascPairs ps = true) ∨
      (st.2 ≠ [] ∧ ascChain (blkLast st.2) ps = true)) :
    BuildInv (packFold st ps).1 (packFold st ps).2 (addAll b ps) := by
  induction ps generalizing st b with
  | nil => exact hinv
  | cons p rest ih =>
    have hkey : st.2 ≠ [] → ltB (blkLast st.2) p.1 = true := by
      intro hne
      rcases hasc with ⟨hnil, _⟩ | ⟨_, hchain⟩
      · exact absurd hnil hne
      · exact (Bool.and_eq_true_iff.mp (by simpa [ascChain] using hchain)).1
    have hstep := Add_simulates_packStep st.1 st.2 b p.1 p.2 hinv hkey
    have hrest : ascChain p.1 rest = true := by
      rcases hasc with ⟨_, hap⟩ | ⟨_, hchain⟩
      · simpa [ascPairs] using hap
      · exact (Bool.and_eq_true_iff.mp (by simpa [ascChain] using hchain)).2
    have hsnd := packStep_snd_spec st p
    rw [addAll, List.foldl_cons, ← addAll, packFold, List.foldl_cons, ← packFold]
    refine ih (packStep st p) _ hstep.2 (Or.inr ⟨hsnd.2, ?_⟩)
    rw [hsnd.1]
    exact hrest

/-- Running `Finish` under the invariant: it succeeds and the final file is the
data blocks (pending one flushed last) followed by the index block and
the footer. -/
theorem Finish_writes_tableFile (fl : List Block) (cur : Block)
    (b : SSTableBuilder) (hinv : BuildInv fl cur b) :
    b.Finish.1 = true ∧
    b.Finish.2.file = tableFile (allBlocks (fl, cur)) := by
  have hc : ¬(b.finished = true ∨ b.fileOk = false) := by
    simp [hinv.hok, hinv.hfin]
  have hb1 : b.FlushDataBlock.file = encBlocks (allBlocks (fl, cur)) ∧
      b.FlushDataBlock.index_data = indexOfBlocks 0 (allBlocks (fl, cur)) := by
    by_cases hcur : cur = []
    · have hcurb : b.cur_data_block = [] := by rw [hinv.hcur, hcur]; rfl
      rw [SSTableBuilder.FlushDataBlock, if_pos hcurb]
      have hA : allBlocks (fl, cur) = fl := by rw [allBlocks, if_pos hcur]
      rw [hA]
      exact ⟨hinv.hfile, hinv.hidx⟩
    · have hcurb : b.cur_data_block ≠ [] := by
        rw [hinv.hcur]; exact encBlock_ne_nil hcur
      rw [SSTableBuilder.FlushDataBlock, if_neg hcurb]
      have hA : allBlocks (fl, cur) = fl ++ [cur] := by rw [allBlocks, if_neg hcur]
      have hidx2 : mapInsert b.index_data b.last_key_in_block
          ⟨b.cur_data_block_offset, b.cur_data_block.length % 2 ^ 32⟩ =
          indexOfBlocks 0 (fl ++ [cur]) := by
        rw [hinv.hidx, hinv.hlast, hinv.hcur, hinv.hoff,
          mapInsert_append _ _ _ ?_, indexOfBlocks_append_singleton]
        · simp
        · intro e he
          obtain ⟨blk, hblk, hkey1⟩ := mem_indexOfBlocks he
          rw [hkey1]
          exact hinv.horder hcur blk hblk
      rw [hA]
      constructor
      · simp only [hinv.hfile, hinv.hcur, encBlocks_append, encBlocks_singleton]
      · simp only [hidx2]
    -- flush does not change fileOk/finished
  have hokf : b.FlushDataBlock.finished = false ∧ b.FlushDataBlock.fileOk = true := by
    rw [SSTableBuilder.FlushDataBlock]
    by_cases hcurb : b.cur_data_block = []
    · rw [if_pos hcurb]; exact ⟨hinv.hfin, hinv.hok⟩
    · rw [if_neg hcurb]; exact ⟨hinv.hfin, hinv.hok⟩
  rw [SSTableBuilder.Finish, if_neg hc]
  refine ⟨by trivial, ?_⟩
  simp only [hb1.1, hb1.2, tableFile]
  have htake : (encFooter ⟨⟨(encBlocks (allBlocks (fl, cur))).length % 2 ^ 64,
      (encIndex (indexOfBlocks 0 (allBlocks (fl, cur)))).length % 2 ^ 32⟩,
      SSTABLE_MAGIC_NUMBER⟩).take FOOTER_SIZE =
      encFooter ⟨⟨(encBlocks (allBlocks (fl, cur))).length % 2 ^ 64,
      (encIndex (indexOfBlocks 0 (allBlocks (fl, cur)))).length % 2 ^ 32⟩,
      SSTABLE_MAGIC_NUMBER⟩ := by
    rw [show FOOTER_SIZE = (encFooter ⟨⟨(encBlocks (allBlocks (fl, cur))).length % 2 ^ 64,
      (encIndex (indexOfBlocks 0 (allBlocks (fl, cur)))).length % 2 ^ 32⟩,
      SSTABLE_MAGIC_NUMBER⟩).length from (encFooter_length _).symm, List.take_length]
  rw [htake, List.append_assoc]

/-- The built file, for an ascending input, is the table image of the
block partition. -/
theorem buildFile_eq_tableFile (ps : List (List Nat × List Nat))
    (hasc : ascPairs ps = true) :
    (addAll SSTableBuilder.init ps).Finish.1 = true ∧
    buildFile ps = tableFile (allBlocks (packFold ([], []) ps)) := by
  have hinv := addAll_simulates_packFold ps ([], []) SSTableBuilder.init
    buildInv_init (Or.inl ⟨rfl, hasc⟩)
  have hfin := Finish_writes_tableFile (packFold ([], []) ps).1
    (packFold ([], []) ps).2 (addAll SSTableBuilder.init ps) hinv
  exact ⟨hfin.1, hfin.2⟩

/-! ## Reading back the index block -/

theorem foldl_writeKV_handles (entries : List (List Nat × BlockHandle))
    (buf : List Nat) :
    entries.foldl (fun buf e => writeKV buf e.1 (encHandle e.2)) buf =
      buf ++ (entries.map fun e => encRecord e.1 (encHandle e.2)).flatten := by
  induction entries generalizing buf with
  | nil => simp
  | cons e rest ih =>
    rw [List.foldl_cons, ih]
    simp [writeKV]

theorem encIndex_eq_flatten (entries : List (List Nat × BlockHandle)) :
    encIndex entries = (entries.map fun e => encRecord e.1 (encHandle e.2)).flatten := by
  rw [encIndex, foldl_writeKV_handles]
  rfl

theorem encIndex_cons (e : List Nat × BlockHandle)
    (rest : List (List Nat × BlockHandle)) :
    encIndex (e :: rest) = encRecord e.1 (encHandle e.2) ++ encIndex rest := by
  rw [encIndex_eq_flatten, encIndex_eq_flatten]
  simp

theorem encIndex_length (entries : List (List Nat × BlockHandle)) :
    (encIndex entries).length = (entries.map fun e => 20 + e.1.length).sum := by
  induction entries with
  | nil => rfl
  | cons e rest ih =>
    rw [encIndex_cons, List.length_append, ih, encRecord_length, encHandle_length]
    simp only [List.map_cons, List.sum_cons]
    omega

theorem mem_indexOfBlocks_handle {e : List Nat × BlockHandle} {off : Nat}
    {blocks : List Block} (h : e ∈ indexOfBlocks off blocks) :
    e.2.offset < 2 ^ 64 ∧ e.2.size < 2 ^ 32 := by
  induction blocks generalizing off with
  | nil => simp [indexOfBlocks] at h
  | cons blk rest ih =>
    rw [indexOfBlocks] at h
    rcases List.mem_cons.mp h with hm | hm
    · rw [hm]
      exact ⟨Nat.mod_lt _ (by norm_num), Nat.mod_lt _ (by norm_num)⟩
    · exact ih hm

/-- Parsing the serialized index recovers exactly the serialized
entries, appended to whatever the map already holds below them. -/
theorem parseIndexLoop_encIndex (entries : List (List Nat × BlockHandle))
    (acc : List (List Nat × BlockHandle)) (fuel : Nat)
    (hfuel : (encIndex entries).length ≤ fuel)
    (hacc : ∀ a ∈ acc, ∀ e ∈ entries, ltB a.1 e.1 = true)
    (hpw : List.Pairwise (fun e1 e2 => ltB e1.1 e2.1 = true) entries)
    (hk : ∀ e ∈ entries, e.1.length < 2 ^ 32)
    (hh : ∀ e ∈ entries, e.2.offset < 2 ^ 64 ∧ e.2.size < 2 ^ 32) :
    ParseIndexLoop fuel (encIndex entries) acc = some (acc ++ entries) := by
  induction entries generalizing acc fuel with
  | nil =>
    cases fuel with
    | zero => simp [ParseIndexLoop, encIndex]
    | succ f => simp [ParseIndexLoop, encIndex]
  | cons e rest ih =>
    have hlen : (encIndex (e :: rest)).length =
        20 + e.1.length + (encIndex rest).length := by
      rw [encIndex_cons, List.length_append, encRecord_length, encHandle_length]
      omega
    cases fuel with
    | zero =>
      rw [hlen] at hfuel
      omega
    | succ f =>
      have hne : encIndex (e :: rest) ≠ [] := by
        intro hc
        rw [hc] at hlen
        simp at hlen
        omega
      have hkv : readKV (encIndex (e :: rest)) = some (e.1, encHandle e.2, encIndex rest) := by
        rw [encIndex_cons]
        exact readKV_encRecord e.1 (encHandle e.2) (encIndex rest)
          (hk e (by simp)) (by rw [encHandle_length]; norm_num)
      have hdec : BlockHandle.DecodeFrom ⟨0, 0⟩ (encHandle e.2) = (true, e.2, []) := by
        have := decodeFrom_encHandle e.2 [] ⟨0, 0⟩ (hh e (by simp)).1 (hh e (by simp)).2
        simpa using this
      rw [ParseIndexLoop, if_neg hne, hkv]
      simp only [hdec]
      rw [if_neg (by simp)]
      have hins : mapInsert acc e.1 e.2 = acc ++ [e] := by
        have := mapInsert_append acc e.1 e.2 (fun a ha => hacc a ha e (by simp))
        simpa using this
      rw [hins, ih (acc ++ [e]) f ?_ ?_ (List.Pairwise.sublist (by simp) hpw) ?_ ?_]
      · simp
      · rw [hlen] at hfuel
        omega
      · intro a ha e' he'
        rcases List.mem_append.mp ha with hm | hm
        · exact hacc a hm e' (by simp [he'])
        · rw [List.mem_singleton.mp hm]
          exact (List.pairwise_cons.mp hpw).1 e' he'
      · exact fun e' he' => hk e' (by simp [he'])
      · exact fun e' he' => hh e' (by simp [he'])

/-- Opening the built table image succeeds and loads exactly the
builder's index. -/
theorem open_tableFile (blocks : List Block)
    (hne : ∀ blk ∈ blocks, blk ≠ [])
    (hcross : List.Pairwise
      (fun b1 b2 => ∀ p ∈ b1, ∀ q ∈ b2, ltB p.1 q.1 = true) blocks)
    (hk : ∀ blk ∈ blocks, (blkLast blk).length < 2 ^ 32)
    (hD : (encBlocks blocks).length < 2 ^ 32)
    (hI : (encIndex (indexOfBlocks 0 blocks)).length < 2 ^ 32) :
    SSTableReader.open (tableFile blocks) =
      ⟨true, indexOfBlocks 0 blocks, tableFile blocks⟩ := by
  set D := encBlocks blocks with hDdef
  set I := encIndex (indexOfBlocks 0 blocks) with hIdef
  set ftr : Footer := ⟨⟨D.length % 2 ^ 64, I.length % 2 ^ 32⟩,
    SSTABLE_MAGIC_NUMBER⟩ with hftr
  have hfile : tableFile blocks = D ++ I ++ encFooter ftr := rfl
  have hlen : (tableFile blocks).length = D.length + I.length + 20 := by
    rw [hfile]
    simp [encFooter_length]
    omega
  have h1 : ¬((tableFile blocks).length < FOOTER_SIZE) := by
    rw [hlen]; rw [show FOOTER_SIZE = 20 from rfl]; omega
  have hfb : ((tableFile blocks).drop ((tableFile blocks).length - FOOTER_SIZE)).take
      FOOTER_SIZE = encFooter ftr := by
    have harith : (tableFile blocks).length - FOOTER_SIZE = (D ++ I).length := by
      rw [hlen, List.length_append]
      rw [show FOOTER_SIZE = 20 from rfl]
      omega
    rw [harith, hfile, List.append_assoc, ← List.append_assoc, List.drop_left]
    rw [show FOOTER_SIZE = (encFooter ftr).length from (encFooter_length _).symm,
      List.take_length]
  have hdec : Footer.DecodeFrom ⟨⟨0, 0⟩, 0⟩ (encFooter ftr) = (true, ftr) :=
    decodeFrom_encFooter ftr ⟨⟨0, 0⟩, 0⟩ rfl
      (Nat.mod_lt _ (by norm_num)) (Nat.mod_lt _ (by norm_num))
  have ho64 : D.length % 2 ^ 64 = D.length := Nat.mod_eq_of_lt (by omega)
  have hsz32 : I.length % 2 ^ 32 = I.length := Nat.mod_eq_of_lt hI
  have hhandle : ftr.index_block_handle = ⟨D.length, I.length⟩ := by
    simp only [hftr, ho64, hsz32]
  have hrb : ReadDataBlock (tableFile blocks) ftr.index_block_handle = some I := by
    rw [hhandle, ReadDataBlock]
    rw [if_pos (by show D.length + I.length ≤ _; rw [hlen]; omega)]
    simp only [hfile, List.append_assoc, List.drop_left, List.take_left]
  have hparse : parseIndexBlock I = some (indexOfBlocks 0 blocks) := by
    rw [parseIndexBlock, hIdef]
    have := parseIndexLoop_encIndex (indexOfBlocks 0 blocks) []
      (encIndex (indexOfBlocks 0 blocks)).length (le_refl _)
      (by simp)
      (indexOfBlocks_pairwise 0 blocks hne hcross)
      (fun e he => by
        obtain ⟨blk, hblk, hkey⟩ := mem_indexOfBlocks he
        rw [hkey]
        exact hk blk hblk)
      (fun e he => mem_indexOfBlocks_handle he)
    simpa using this
  rw [SSTableReader.open]
  rw [if_neg h1]
  simp only [hfb, hdec]
  rw [if_neg (by simp)]
  rw [hrb]
  simp only [hparse]

/-! ## Scanning a data block -/

theorem blkLast_cons_of_ne_nil (q : List Nat × List Nat) {rest : Block}
    (h : rest ≠ []) : blkLast (q :: rest) = blkLast rest := by
  cases rest with
  | nil => exact absurd rfl h
  | cons r rs => rw [blkLast, blkLast, List.getLast?_cons_cons]

/-- In a sorted block, every key either is the last key or is below it. -/
theorem pairwise_le_last {blk : Block}
    (hpw : List.Pairwise (fun p q => ltB p.1 q.1 = true) blk)
    {p : List Nat × List Nat} (hp : p ∈ blk) :
    p.1 = blkLast blk ∨ ltB p.1 (blkLast blk) = true := by
  induction blk with
  | nil => simp at hp
  | cons q rest ih =>
    by_cases hr : rest = []
    · subst hr
      rw [List.mem_singleton.mp hp, blkLast_singleton]
      exact Or.inl rfl
    · rw [blkLast_cons_of_ne_nil q hr]
      rcases List.mem_cons.mp hp with rfl | hm
      · obtain ⟨v, hv⟩ := blkLast_mem hr
        exact Or.inr ((List.pairwise_cons.mp hpw).1 (blkLast rest, v) hv)
      · exact ih (List.pairwise_cons.mp hpw).2 hm

/-- Scanning the encoding of a sorted block for a key it contains
returns that key's value. -/
theorem findInBlockLoop_found (blk : Block) (key value : List Nat) (fuel : Nat)
    (hfuel : (encBlock blk).length ≤ fuel)
    (hmem : (key, value) ∈ blk)
    (hpw : List.Pairwise (fun p q => ltB p.1 q.1 = true) blk)
    (hsz : ∀ p ∈ blk, p.1.length < 2 ^ 32 ∧ p.2.length < 2 ^ 32) :
    FindInBlockLoop fuel (encBlock blk) key = some value := by
  induction blk generalizing fuel with
  | nil => simp at hmem
  | cons p rest ih =>
    have hlen : (encBlock (p :: rest)).length =
        8 + p.1.length + p.2.length + (encBlock rest).length := by
      rw [encBlock_cons, List.length_append, encRecord_length]
    cases fuel with
    | zero => rw [hlen] at hfuel; omega
    | succ f =>
      have hkv : readKV (encBlock (p :: rest)) = some (p.1, p.2, encBlock rest) := by
        rw [encBlock_cons]
        exact readKV_encRecord p.1 p.2 (encBlock rest)
          (hsz p (by simp)).1 (hsz p (by simp)).2
      simp only [FindInBlockLoop, hkv]
      by_cases heq : p.1 = key
      · rw [if_pos heq]
        rcases List.mem_cons.mp hmem with hm | hm
        · rw [← hm]
        · have hcontra := (List.pairwise_cons.mp hpw).1 (key, value) hm
          rw [heq, ltB_irrefl] at hcontra
          exact absurd hcontra (by simp)
      · rw [if_neg heq]
        have hm : (key, value) ∈ rest := by
          rcases List.mem_cons.mp hmem with hm | hm
          · exact absurd (congrArg Prod.fst hm).symm heq
          · exact hm
        have hlt : ltB p.1 key = true := (List.pairwise_cons.mp hpw).1 (key, value) hm
        rw [if_neg (by rw [ltB_asymm hlt]; simp)]
        refine ih f (by omega) hm (List.pairwise_cons.mp hpw).2 ?_
        exact fun p' hp' => hsz p' (by simp [hp'])

/-- Scanning the encoding of a block for an absent key returns
not-found. -/
theorem findInBlockLoop_not_found (blk : Block) (key : List Nat) (fuel : Nat)
    (hfuel : (encBlock blk).length ≤ fuel)
    (hmem : ∀ p ∈ blk, p.1 ≠ key)
    (hsz : ∀ p ∈ blk, p.1.length < 2 ^ 32 ∧ p.2.length < 2 ^ 32) :
    FindInBlockLoop fuel (encBlock blk) key = none := by
  induction blk generalizing fuel with
  | nil =>
    cases fuel with
    | zero => rfl
    | succ f =>
      rw [encBlock_nil, FindInBlockLoop]
      have h : readKV [] = none := rfl
      rw [h]
  | cons p rest ih =>
    have hlen : (encBlock (p :: rest)).length =
        8 + p.1.length + p.2.length + (encBlock rest).length := by
      rw [encBlock_cons, List.length_append, encRecord_length]
    cases fuel with
    | zero => rw [hlen] at hfuel; omega
    | succ f =>
      have hkv : readKV (encBlock (p :: rest)) = some (p.1, p.2, encBlock rest) := by
        rw [encBlock_cons]
        exact readKV_encRecord p.1 p.2 (encBlock rest)
          (hsz p (by simp)).1 (hsz p (by simp)).2
      simp only [FindInBlockLoop, hkv]
      rw [if_neg (hmem p (by simp))]
      by_cases hlt : ltB key p.1 = true
      · rw [if_pos hlt]
      · rw [if_neg hlt]
        refine ih f (by omega) (fun p' hp' => hmem p' (by simp [hp'])) ?_
        exact fun p' hp' => hsz p' (by simp [hp'])

/-! ## The two-level lookup over the laid-out blocks -/

/-- Looking up a key that lives in one of the blocks: `lower_bound` over
the index finds that block (the first whose last key is not below the
query), the block's byte range is read back, and the scan returns the
stored value.  `front` generalises the bytes preceding the remaining
blocks, so the statement is inductive in the block list. -/
theorem get_reader_found (blocks : List Block) (front tail key value : List Nat)
    (hmem : (key, value) ∈ blocks.flatten)
    (hpw : List.Pairwise (fun p q => ltB p.1 q.1 = true) blocks.flatten)
    (hne : ∀ blk ∈ blocks, blk ≠ [])
    (hbound : front.length + (encBlocks blocks).length < 2 ^ 32) :
    SSTableReader.Get ⟨true, indexOfBlocks front.length blocks,
      front ++ encBlocks blocks ++ tail⟩ key = some value := by
  induction blocks generalizing front with
  | nil => simp at hmem
  | cons blk rest ih =>
    rw [List.flatten_cons] at hmem hpw
    have hpwparts := List.pairwise_append.mp hpw
    have hb1 : (encBlock blk).length ≤ (encBlocks (blk :: rest)).length := by
      rw [encBlocks_cons, List.length_append]
      omega
    have hoffmod : front.length % 2 ^ 64 = front.length :=
      Nat.mod_eq_of_lt (by omega)
    have hszmod : (encBlock blk).length % 2 ^ 32 = (encBlock blk).length :=
      Nat.mod_eq_of_lt (by omega)
    have hszblk : ∀ p ∈ blk, p.1.length < 2 ^ 32 ∧ p.2.length < 2 ^ 32 := by
      intro p hp
      have h1 := entry_le_entriesSize hp
      rw [← encBlock_length] at h1
      omega
    rw [SSTableReader.Get, if_neg (by simp)]
    simp only [indexOfBlocks, hoffmod, hszmod, lowerBound]
    rcases List.mem_append.mp hmem with hmblk | hmrest
    · -- the key lives in the first block
      have hnotlt : ¬(ltB (blkLast blk) key = true) := by
        rcases pairwise_le_last hpwparts.1 hmblk with heq | hlt
        · rw [← heq, ltB_irrefl]; simp
        · rw [ltB_asymm hlt]; simp
      rw [if_neg hnotlt]
      have hrb : ReadDataBlock (front ++ encBlocks (blk :: rest) ++ tail)
          ⟨front.length, (encBlock blk).length⟩ = some (encBlock blk) := by
        rw [ReadDataBlock]
        rw [if_pos (by
          show front.length + (encBlock blk).length ≤ _
          simp only [List.length_append]
          omega)]
        have hre : front ++ encBlocks (blk :: rest) ++ tail =
            front ++ (encBlock blk ++ (encBlocks rest ++ tail)) := by
          rw [encBlocks_cons]; simp [List.append_assoc]
        rw [hre]
        show some ((List.drop front.length (front ++ _)).take (encBlock blk).length) = _
        rw [List.drop_left, List.take_left]
      simp only [hrb]
      show FindInBlock (encBlock blk) key = some value
      rw [FindInBlock]
      exact findInBlockLoop_found blk key value (encBlock blk).length (le_refl _)
        hmblk hpwparts.1 hszblk
    · -- the key lives in a later block
      have hlt : ltB (blkLast blk) key = true := by
        obtain ⟨v', hv'⟩ := blkLast_mem (hne blk (by simp))
        exact hpwparts.2.2 (blkLast blk, v') hv' (key, value) hmrest
      rw [if_pos hlt]
      have ihh := ih (front ++ encBlock blk) hmrest hpwparts.2.1
        (fun b hb => hne b (by simp [hb]))
        (by
          rw [List.length_append, encBlocks_cons, List.length_append] at *
          omega)
      rw [SSTableReader.Get, if_neg (by simp)] at ihh
      rw [List.length_append] at ihh
      have hre : (front ++ encBlock blk) ++ encBlocks rest ++ tail =
          front ++ encBlocks (blk :: rest) ++ tail := by
        rw [encBlocks_cons]; simp [List.append_assoc]
      rw [hre] at ihh
      exact ihh

/-- Looking up a key held by none of the blocks returns not-found:
either the index search runs off the end, or the chosen block's scan
finds nothing. -/
theorem get_reader_not_found (blocks : List Block) (front tail q : List Nat)
    (habs : ∀ p ∈ blocks.flatten, p.1 ≠ q)
    (hne : ∀ blk ∈ blocks, blk ≠ [])
    (hbound : front.length + (encBlocks blocks).length < 2 ^ 32) :
    SSTableReader.Get ⟨true, indexOfBlocks front.length blocks,
      front ++ encBlocks blocks ++ tail⟩ q = none := by
  induction blocks generalizing front with
  | nil =>
    rw [SSTableReader.Get, if_neg (by simp)]
    rfl
  | cons blk rest ih =>
    rw [List.flatten_cons] at habs
    have hb1 : (encBlock blk).length ≤ (encBlocks (blk :: rest)).length := by
      rw [encBlocks_cons, List.length_append]
      omega
    have hoffmod : front.length % 2 ^ 64 = front.length :=
      Nat.mod_eq_of_lt (by omega)
    have hszmod : (encBlock blk).length % 2 ^ 32 = (encBlock blk).length :=
      Nat.mod_eq_of_lt (by omega)
    have hszblk : ∀ p ∈ blk, p.1.length < 2 ^ 32 ∧ p.2.length < 2 ^ 32 := by
      intro p hp
      have h1 := entry_le_entriesSize hp
      rw [← encBlock_length] at h1
      omega
    rw [SSTableReader.Get, if_neg (by simp)]
    simp only [indexOfBlocks, hoffmod, hszmod, lowerBound]
    by_cases hlt : ltB (blkLast blk) q = true
    · rw [if_pos hlt]
      have ihh := ih (front ++ encBlock blk)
        (fun p hp => habs p (List.mem_append.mpr (Or.inr hp)))
        (fun b hb => hne b (by simp [hb]))
        (by
          rw [List.length_append, encBlocks_cons, List.length_append] at *
          omega)
      rw [SSTableReader.Get, if_neg (by simp)] at ihh
      rw [List.length_append] at ihh
      have hre : (front ++ encBlock blk) ++ encBlocks rest ++ tail =
          front ++ encBlocks (blk :: rest) ++ tail := by
        rw [encBlocks_cons]; simp [List.append_assoc]
      rw [hre] at ihh
      exact ihh
    · rw [if_neg hlt]
      have hrb : ReadDataBlock (front ++ encBlocks (blk :: rest) ++ tail)
          ⟨front.length, (encBlock blk).length⟩ = some (encBlock blk) := by
        rw [ReadDataBlock]
        rw [if_pos (by
          show front.length + (encBlock blk).length ≤ _
          simp only [List.length_append]
          omega)]
        have hre : front ++ encBlocks (blk :: rest) ++ tail =
            front ++ (encBlock blk ++ (encBlocks rest ++ tail)) := by
          rw [encBlocks_cons]; simp [List.append_assoc]
        rw [hre]
        show some ((List.drop front.length (front ++ _)).take (encBlock blk).length) = _
        rw [List.drop_left, List.take_left]
      simp only [hrb]
      show FindInBlock (encBlock blk) q = none
      rw [FindInBlock]
      exact findInBlockLoop_not_found blk q (encBlock blk).length (le_refl _)
        (fun p hp => habs p (List.mem_append.mpr (Or.inl hp))) hszblk

/-! ## End-to-end round trip -/

theorem ascChain_spec (ps : List (List Nat × List Nat)) (last : List Nat)
    (h : ascChain last ps = true) :
    List.Pairwise (fun p q => ltB p.1 q.1 = true) ps ∧
    ∀ p ∈ ps, ltB last p.1 = true := by
  induction ps generalizing last with
  | nil => exact ⟨List.Pairwise.nil, by simp⟩
  | cons p rest ih =>
    rw [ascChain] at h
    obtain ⟨h1, h2⟩ := Bool.and_eq_true_iff.mp h
    obtain ⟨hpw, hall⟩ := ih p.1 h2
    refine ⟨List.Pairwise.cons hall hpw, ?_⟩
    intro r hr
    rcases List.mem_cons.mp hr with rfl | hm
    · exact h1
    · exact ltB_trans h1 (hall r hm)

theorem ascPairs_pairwise (ps : List (List Nat × List Nat))
    (h : ascPairs ps = true) :
    List.Pairwise (fun p q => ltB p.1 q.1 = true) ps := by
  cases ps with
  | nil => exact List.Pairwise.nil
  | cons p rest =>
    rw [ascPairs] at h
    obtain ⟨hpw, hall⟩ := ascChain_spec rest p.1 h
    exact List.Pairwise.cons hall hpw

theorem encIndex_indexOfBlocks_length (off : Nat) (blocks : List Block) :
    (encIndex (indexOfBlocks off blocks)).length =
      (blocks.map fun b => 20 + (blkLast b).length).sum := by
  induction blocks generalizing off with
  | nil => rfl
  | cons blk rest ih =>
    rw [indexOfBlocks, encIndex_cons, List.length_append, encRecord_length,
      encHandle_length, ih]
    simp only [List.map_cons, List.sum_cons]
    omega

theorem sum_map_const_add (bs : List Block) :
    (bs.map fun b => 20 + (blkLast b).length).sum =
      20 * bs.length + (bs.map fun b => (blkLast b).length).sum := by
  induction bs with
  | nil => simp
  | cons b rest ih =>
    simp only [List.map_cons, List.sum_cons, List.length_cons, ih]
    ring

/-- The numeric bounds `open_tableFile` needs, derived from `sizeOK`. -/
theorem table_bounds (ps : List (List Nat × List Nat)) (hsz : sizeOK ps) :
    let blocks := allBlocks (packFold ([], []) ps)
    (encBlocks blocks).length < 2 ^ 32 ∧
    (∀ blk ∈ blocks, (blkLast blk).length < 2 ^ 32) ∧
    (encIndex (indexOfBlocks 0 blocks)).length < 2 ^ 32 := by
  intro blocks
  have hflat : blocks.flatten = ps := flatten_allBlocks_packFold ps
  have hneb : ∀ blk ∈ blocks, blk ≠ [] := allBlocks_ne_nil ps
  rw [sizeOK] at hsz
  have hD : (encBlocks blocks).length = entriesSize ps := by
    rw [encBlocks_length, hflat]
  refine ⟨by omega, ?_, ?_⟩
  · intro blk hblk
    obtain ⟨v, hv⟩ := blkLast_mem (hneb blk hblk)
    have hm : (blkLast blk, v) ∈ blocks.flatten :=
      List.mem_flatten.mpr ⟨blk, hblk, hv⟩
    rw [hflat] at hm
    have := entry_le_entriesSize hm
    simp only at this
    omega
  · rw [encIndex_indexOfBlocks_length, sum_map_const_add]
    have h1 : blocks.length ≤ ps.length := by
      calc blocks.length ≤ blocks.flatten.length := length_le_flatten_length hneb
        _ = ps.length := by rw [hflat]
    have h2 := sum_lasts_le blocks hneb
    rw [hflat] at h2
    have h3 := keylen_sum_le_entriesSize ps
    omega

/-- C2: building a table from records with strictly ascending keys (of
realistic total size) and querying each inserted key through a reader
opened on the produced file returns exactly the inserted value, however
many data blocks the records were split into. -/
theorem build_roundtrip_get_inserted (ps : List (List Nat × List Nat))
    (hasc : ascPairs ps = true) (hsz : sizeOK ps) :
    ∀ kv ∈ ps, (SSTableReader.open (buildFile ps)).Get kv.1 = some kv.2 := by
  intro kv hkv
  have hflat : (allBlocks (packFold ([], []) ps)).flatten = ps :=
    flatten_allBlocks_packFold ps
  have hneb := allBlocks_ne_nil ps
  have hpwflat : List.Pairwise (fun p q => ltB p.1 q.1 = true)
      (allBlocks (packFold ([], []) ps)).flatten := by
    rw [hflat]; exact ascPairs_pairwise ps hasc
  have hcross := (List.pairwise_flatten.mp hpwflat).2
  obtain ⟨hD32, hk32, hI32⟩ := table_bounds ps hsz
  have hopen := open_tableFile (allBlocks (packFold ([], []) ps)) hneb hcross
    hk32 hD32 hI32
  rw [(buildFile_eq_tableFile ps hasc).2, hopen]
  have hmem : (kv.1, kv.2) ∈ (allBlocks (packFold ([], []) ps)).flatten := by
    rw [hflat]; simpa using hkv
  have hget := get_reader_found (allBlocks (packFold ([], []) ps)) []
    (encIndex (indexOfBlocks 0 (allBlocks (packFold ([], []) ps))) ++
      encFooter ⟨⟨(encBlocks (allBlocks (packFold ([], []) ps))).length % 2 ^ 64,
        (encIndex (indexOfBlocks 0 (allBlocks (packFold ([], []) ps)))).length % 2 ^ 32⟩,
        SSTABLE_MAGIC_NUMBER⟩)
    kv.1 kv.2 hmem hpwflat hneb (by simpa using hD32)
  simpa [tableFile, List.append_assoc] using hget

/-- C3: querying a key that was never inserted — below all keys, in any
interior gap, or above all keys — through a reader on the built table
returns not-found. -/
theorem build_get_absent_not_found (ps : List (List Nat × List Nat))
    (hasc : ascPairs ps = true) (hsz : sizeOK ps) (q : List Nat)
    (hq : q ∉ ps.map Prod.fst) :
    (SSTableReader.open (buildFile ps)).Get q = none := by
  have hflat : (allBlocks (packFold ([], []) ps)).flatten = ps :=
    flatten_allBlocks_packFold ps
  have hneb := allBlocks_ne_nil ps
  have hpwflat : List.Pairwise (fun p q => ltB p.1 q.1 = true)
      (allBlocks (packFold ([], []) ps)).flatten := by
    rw [hflat]; exact ascPairs_pairwise ps hasc
  have hcross := (List.pairwise_flatten.mp hpwflat).2
  obtain ⟨hD32, hk32, hI32⟩ := table_bounds ps hsz
  have hopen := open_tableFile (allBlocks (packFold ([], []) ps)) hneb hcross
    hk32 hD32 hI32
  rw [(buildFile_eq_tableFile ps hasc).2, hopen]
  have habs : ∀ p ∈ (allBlocks (packFold ([], []) ps)).flatten, p.1 ≠ q := by
    intro p hp hc
    rw [hflat] at hp
    exact hq (hc ▸ List.mem_map_of_mem Prod.fst hp)
  have hget := get_reader_not_found (allBlocks (packFold ([], []) ps)) []
    (encIndex (indexOfBlocks 0 (allBlocks (packFold ([], []) ps))) ++
      encFooter ⟨⟨(encBlocks (allBlocks (packFold ([], []) ps))).length % 2 ^ 64,
        (encIndex (indexOfBlocks 0 (allBlocks (packFold ([], []) ps)))).length % 2 ^ 32⟩,
        SSTABLE_MAGIC_NUMBER⟩)
    q habs hneb (by simpa using hD32)
  simpa [tableFile, List.append_assoc] using hget

set_option maxRecDepth 4000 in
/-- Witness for C2 on a concrete three-record table whose 69-byte
records split into three data blocks. -/
theorem build_roundtrip_get_inserted_witness :
    (SSTableReader.open (buildFile [([97], List.replicate 60 7),
      ([98], List.replicate 60 8), ([99], List.replicate 60 9)])).Get [98] =
      some (List.replicate 60 8) :=
  build_roundtrip_get_inserted _ (by decide) (by unfold sizeOK; decide)
    ([98], List.replicate 60 8) (by decide)

set_option maxRecDepth 4000 in
/-- Witness for C3 on the same table: a key in an interior gap. -/
theorem build_get_absent_not_found_witness :
    (SSTableReader.open (buildFile [([97], List.replicate 60 7),
      ([98], List.replicate 60 8), ([99], List.replicate 60 9)])).Get [98, 1] =
      none :=
  build_get_absent_not_found _ (by decide) (by unfold sizeOK; decide) [98, 1] (by decide)

end MyKV
